import Mathlib

/-!
Verification of the refrakt backend's job-orchestration core (src/backend.py).

The development shallowly embeds the relevant Python functions:

* `extract_model_name`   (backend.py lines 326-345)
* `extract_experiment_id` (backend.py lines 348-368)
* `consolidate_log_files` (backend.py lines 371-417)
* `copy_checkpoint_files_to_job_dir` (backend.py lines 420-483)
* `read_stream_chunks`   (backend.py lines 234-323)
* the post-`process.wait()` tail of `run_refrakt_job` (backend.py lines 486-587)

Conventions used throughout:

* Python values handled by `extract_model_name` are modelled by `PyVal`;
  operations that can raise return `Except PyErr`.
* Byte streams are modelled as lists of `Char` chunks; the claims under
  study concern textual streams, so UTF-8 decoding (with replacement
  characters) is the identity on this representation.  Python's
  `str.strip`/`rstrip` strip ASCII whitespace here, which covers every
  text the claims quantify over.
* Filesystem paths are modelled as lists of segments (`os.path.flatten a b`
  becomes `a ++ [b]`); the filesystem is a finite map from paths to file
  contents plus a set of directory paths.
-/

/-! ### Python values and the exceptions raised by `extract_model_name` -/

inductive PyErr where
  | typeError
  | keyError
  | attributeError
deriving DecidableEq, Repr

inductive PyVal where
  | pynone : PyVal
  | pybool : Bool → PyVal
  | pyint : Int → PyVal
  | pystr : String → PyVal
  | pylist : List PyVal → PyVal
  | pydict : List (String × PyVal) → PyVal

open PyVal

/-- Python truthiness (`if not config: ...`) for the modelled values. -/
def pyFalsy : PyVal → Bool
  | pynone => true
  | pybool b => !b
  | pyint n => n == 0
  | pystr s => s == ""
  | pylist xs => xs.isEmpty
  | pydict es => es.isEmpty

/-- `containsSub needle hay`: `needle` occurs as a contiguous substring of
`hay` (Python's `needle in hay` on strings). -/
def containsSub (needle : List Char) : List Char → Bool
  | [] => needle.isPrefixOf []
  | c :: cs => needle.isPrefixOf (c :: cs) || containsSub needle cs

/-- Python `key in v`.  On a dict this is key containment, on a string it is
substring containment, on a list it is element equality against the key
string; on `None`, ints and bools it raises `TypeError`. -/
def pyContains (v : PyVal) (key : String) : Except PyErr Bool :=
  match v with
  | pydict es => .ok (es.lookup key).isSome
  | pystr s => .ok (containsSub key.toList s.toList)
  | pylist xs => .ok (xs.any fun x => match x with | pystr t => t == key | _ => false)
  | _ => .error .typeError

/-- Python `v[key]` with a string key: dict lookup (`KeyError` when the key is
missing); every other receiver raises `TypeError`. -/
def pySubscript (v : PyVal) (key : String) : Except PyErr PyVal :=
  match v with
  | pydict es =>
    match es.lookup key with
    | some x => .ok x
    | none => .error .keyError
  | _ => .error .typeError

/-- Python `v.get(key, default)`: only dicts have a `get` attribute, every
other receiver raises `AttributeError`. -/
def pyGet (v : PyVal) (key : String) (default : PyVal) : Except PyErr PyVal :=
  match v with
  | pydict es => .ok ((es.lookup key).getD default)
  | _ => .error .attributeError

/-- Python `v == "lit"` for a string literal: true exactly for the equal
string (no other modelled value compares equal to a `str`). -/
def pyEqStrLit (v : PyVal) (lit : String) : Bool :=
  match v with
  | pystr t => t == lit
  | _ => false

/-- Python `str(v)` as used by the f-string `f"autoencoder_{variant}"`.
The container cases abbreviate Python's repr; no claim inspects them. -/
def pyStrOf : PyVal → String
  | pystr s => s
  | pyint n => toString n
  | pybool b => if b then "True" else "False"
  | pynone => "None"
  | pylist _ => "<list>"
  | pydict _ => "<dict>"

/-- backend.py `extract_model_name` (lines 326-345):

    if not config or "model" not in config: return None
    model_name = config["model"].get("name", None)
    if model_name == "autoencoder" and "params" in config["model"]:
        variant = config["model"]["params"].get("variant", "simple")
        model_name = f"autoencoder_{variant}"
    return model_name

`config["model"]` is pure, so evaluating it once is faithful.  Short-circuit
evaluation of `or` and `and` is preserved. -/
def extract_model_name (config : PyVal) : Except PyErr PyVal :=
  if pyFalsy config then .ok pynone else
  match pyContains config "model" with
  | .error e => .error e
  | .ok hasModel =>
    if !hasModel then .ok pynone else
    match pySubscript config "model" with
    | .error e => .error e
    | .ok modelVal =>
      match pyGet modelVal "name" pynone with
      | .error e => .error e
      | .ok nameVal =>
        if pyEqStrLit nameVal "autoencoder" then
          match pyContains modelVal "params" with
          | .error e => .error e
          | .ok hasParams =>
            if hasParams then
              match pySubscript modelVal "params" with
              | .error e => .error e
              | .ok paramsVal =>
                match pyGet paramsVal "variant" (pystr "simple") with
                | .error e => .error e
                | .ok variant => .ok (pystr ("autoencoder_" ++ pyStrOf variant))
            else .ok nameVal
        else .ok nameVal

/-! ### Experiment-id extraction (backend.py lines 348-368) -/

/-- ASCII whitespace as stripped by Python `str.strip` and matched by the
regex class `\s`; every text the claims quantify over is ASCII. -/
def pyIsSpace (c : Char) : Bool :=
  c == ' ' || c == '\t' || c == '\n' || c == '\r' || c == '\x0b' || c == '\x0c'

/-- Consume exactly `n` leading decimal digits (`\d` followed n times),
returning them and the rest of the input. -/
def takeDigits : Nat → List Char → Option (List Char × List Char)
  | 0, rest => some ([], rest)
  | _ + 1, [] => none
  | n + 1, c :: cs =>
    if c.isDigit then (takeDigits n cs).map (fun p => (c :: p.1, p.2)) else none

/-- The fixed marker phrase of the pattern. -/
def expIdMarker : List Char := "Experiment ID:".toList

/-- Try the regex `Experiment ID:\s*(\d{8}_\d{6})` anchored at the start of
`l`, returning the captured group.  Greedy `\s*` followed by `\d` needs no
backtracking because whitespace and digits are disjoint, so skipping the
maximal whitespace run is faithful. -/
def matchIdAt (l : List Char) : Option (List Char) :=
  if expIdMarker.isPrefixOf l then
    let rest := (l.drop expIdMarker.length).dropWhile pyIsSpace
    match takeDigits 8 rest with
    | some (d8, rest2) =>
      match rest2 with
      | '_' :: rest3 =>
        match takeDigits 6 rest3 with
        | some (d6, _) => some (d8 ++ '_' :: d6)
        | none => none
      | _ => none
    | none => none
  else none

/-- `re.search` for the pattern above: the leftmost start position at which
the pattern matches wins. -/
def searchExpId : List Char → Option (List Char)
  | [] => none
  | c :: cs =>
    match matchIdAt (c :: cs) with
    | some t => some t
    | none => searchExpId cs

/-- backend.py `extract_experiment_id` (lines 348-368):

    for line in output_lines:
        if "Experiment ID:" in line:
            match = re.search(r'Experiment ID:\s*(\d\x7b8\x7d_\d\x7b6\x7d)', line)
            if match: return match.group(1)
    return None
-/
def extract_experiment_id : List (List Char) → Option (List Char)
  | [] => none
  | line :: rest =>
    if containsSub expIdMarker line then
      match searchExpId line with
      | some t => some t
      | none => extract_experiment_id rest
    else extract_experiment_id rest

/-! ### Shape predicate under which `extract_model_name` cannot raise -/

/-- The `params` entry, when present, is itself a dict. -/
def paramsShapeOk (ms : List (String × PyVal)) : Bool :=
  match ms.lookup "params" with
  | some (pydict _) => true
  | some _ => false
  | none => true

/-- The configuration is a dict whose `model` entry, when present, is a dict
whose `params` entry, when present, is a dict; falsy values are also safe. -/
def wellShapedConfig : PyVal → Bool
  | pydict es =>
    match es.lookup "model" with
    | some (pydict ms) => paramsShapeOk ms
    | some _ => false
    | none => true
  | v => pyFalsy v

/-- The call completed without raising. -/
def isOkResult : Except PyErr PyVal → Bool
  | .ok _ => true
  | .error _ => false

/-! ### Filesystem model for the artifact reconciler

Paths are lists of segments; `os.path.flatten a b` with a single-segment name
`b` becomes `a ++ [b]`.  The leading `./jobs` and `./checkpoints` roots are
the segments `"jobs"` and `"checkpoints"`.  A filesystem is a list of
(file path, content) pairs plus a list of existing directory paths; directory
listings are derived from the paths, so moves need no separate bookkeeping. -/

abbrev FsPath := List String

structure FS where
  files : List (FsPath × String)
  dirs : List FsPath
deriving DecidableEq, Repr

/-- `os.path.isfile`. -/
def FS.isFile (fs : FS) (p : FsPath) : Bool := (fs.files.lookup p).isSome

/-- `os.path.isdir`. -/
def FS.isDir (fs : FS) (p : FsPath) : Bool := fs.dirs.contains p

/-- `os.path.exists`. -/
def FS.pathExists (fs : FS) (p : FsPath) : Bool := fs.isFile p || fs.isDir p

/-- The name of `p` when `p` lies directly under directory `parent`. -/
def childName (parent p : FsPath) : Option String :=
  if p.dropLast = parent then p.getLast? else none

/-- `os.listdir`: names of the files and directories directly under `p`
(order: files first, then directories; Python guarantees no order). -/
def FS.listdir (fs : FS) (p : FsPath) : List String :=
  fs.files.filterMap (fun e => childName p e.1) ++ fs.dirs.filterMap (childName p)

/-- Create or overwrite the file at `p` with content `c`. -/
def FS.setFile (fs : FS) (p : FsPath) (c : String) : FS :=
  ⟨(p, c) :: fs.files.filter (fun e => !(e.1 == p)), fs.dirs⟩

/-- Delete the file at `p` if present. -/
def FS.removeFile (fs : FS) (p : FsPath) : FS :=
  ⟨fs.files.filter (fun e => !(e.1 == p)), fs.dirs⟩

/-- `shutil.copy2 src dst` for files; the callers guard `src`'s existence. -/
def FS.copy2 (fs : FS) (src dst : FsPath) : FS :=
  match fs.files.lookup src with
  | some c => fs.setFile dst c
  | none => fs

/-- `shutil.move src dst` for files (the only use in `consolidate_log_files`
is on paths satisfying `os.path.isfile`). -/
def FS.moveFile (fs : FS) (src dst : FsPath) : FS :=
  match fs.files.lookup src with
  | some c => (fs.removeFile src).setFile dst c
  | none => fs

/-- `shutil.rmtree`: remove the directory `p` and everything below it. -/
def FS.rmtree (fs : FS) (p : FsPath) : FS :=
  ⟨fs.files.filter (fun e => !(p.isPrefixOf e.1)),
   fs.dirs.filter (fun d => !(p.isPrefixOf d))⟩

/-- `shutil.copytree src dst`: mirror the subtree at `src` to `dst` (the
caller removed any existing `dst` first, so fresh entries are simply added;
`src` itself maps to `dst`, making `dst` a directory). -/
def FS.copytree (fs : FS) (src dst : FsPath) : FS :=
  ⟨fs.files.filterMap
      (fun e => if src.isPrefixOf e.1 then
                  some (dst ++ e.1.drop src.length, e.2) else none)
    ++ fs.files,
   fs.dirs.filterMap
      (fun d => if src.isPrefixOf d then some (dst ++ d.drop src.length) else none)
    ++ fs.dirs⟩

/-- `os.rmdir` wrapped in `try/except OSError: pass`: the directory is
removed only when it exists and is empty; otherwise nothing happens. -/
def FS.rmdirTolerant (fs : FS) (p : FsPath) : FS :=
  if fs.isDir p && (fs.listdir p).isEmpty then
    ⟨fs.files, fs.dirs.filter (fun d => !(d == p))⟩
  else fs

/-- Truthiness of an `Optional[str]`: `None` and `""` are falsy. -/
def optStrTruthy : Option String → Bool
  | none => false
  | some s => !(s == "")

/-- One iteration of the move loop of `consolidate_log_files` (backend.py
lines 393-403): if the named entry is a file, move it up to the job
directory, renaming it to `<model_name>_<item>` when the destination already
exists; entries that are not files are left alone. -/
def consolidateStep (job_dir log_subdir : FsPath) (model_name : String)
    (acc : FS) (item : String) : FS :=
  let src := log_subdir ++ [item]
  let dst := job_dir ++ [item]
  if acc.isFile src then
    let dst := if acc.pathExists dst then job_dir ++ [model_name ++ "_" ++ item]
               else dst
    acc.moveFile src dst
  else acc

/-- backend.py `consolidate_log_files` (lines 371-417): move every file of
`jobs/<job_id>/<model_name>/` up into `jobs/<job_id>/`, renaming to
`<model_name>_<item>` when the destination already exists, then try to remove
the subdirectory, tolerating failure.  The loop iterates over a snapshot of
`os.listdir`; in this filesystem model none of the operations in the `try`
body can raise, so the `except: return False` branch is unreachable. -/
def consolidate_log_files (fs : FS) (job_id : String) (model_name : Option String) :
    Bool × FS :=
  if !optStrTruthy model_name then (false, fs) else
  match model_name with
  | none => (false, fs)
  | some mn =>
    let job_dir : FsPath := ["jobs", job_id]
    let log_subdir : FsPath := job_dir ++ [mn]
    if !fs.pathExists log_subdir then (false, fs) else
    let items := fs.listdir log_subdir
    let fs1 := items.foldl (consolidateStep job_dir log_subdir mn) fs
    (true, fs1.rmdirTolerant log_subdir)

/-- backend.py `copy_checkpoint_files_to_job_dir` (lines 420-483): copy
everything under `checkpoints/<model_name>_<experiment_id>/` into
`jobs/<job_id>/` (directories replaced wholesale), then copy the config file
in under its original basename and as `<model_name>.yaml`.  The guards
(`not experiment_id or not model_name`, missing checkpoint directory) return
`False` before the `try` block; inside the `try` the model's operations
cannot raise. -/
def copy_checkpoint_files_to_job_dir (fs : FS) (job_id : String)
    (experiment_id : Option String) (model_name : Option String)
    (config_path : FsPath) : Bool × FS :=
  if !optStrTruthy experiment_id || !optStrTruthy model_name then (false, fs) else
  match experiment_id, model_name with
  | some eid, some mn =>
    let checkpoint_dir : FsPath := ["checkpoints", mn ++ "_" ++ eid]
    let job_dir : FsPath := ["jobs", job_id]
    if !fs.pathExists checkpoint_dir then (false, fs) else
    let items := fs.listdir checkpoint_dir
    let fs1 := items.foldl (fun acc item =>
      let src := checkpoint_dir ++ [item]
      let dst := job_dir ++ [item]
      if acc.isDir src then
        let acc := if acc.pathExists dst then acc.rmtree dst else acc
        acc.copytree src dst
      else acc.copy2 src dst) fs
    let fs2 :=
      if fs1.pathExists config_path then
        (fs1.copy2 config_path (job_dir ++ [config_path.getLastD ""])).copy2
          config_path (job_dir ++ [mn ++ ".yaml"])
      else fs1
    (true, fs2)
  | _, _ => (false, fs)

/-! ### The job record and the tail of `run_refrakt_job` -/

/-- The fields of `jobs[job_id]` that `run_refrakt_job` mutates after the
child process exits.  Timestamps are abstracted to a counter. -/
structure JobRec where
  status : String
  error : Option (List Char)
  result_path : Option String
  updated_at : Nat
deriving DecidableEq, Repr

/-- The last `n` elements (Python `l[-n:]`). -/
def lastN (n : Nat) (l : List (List Char)) : List (List Char) :=
  l.drop (l.length - n)

/-- backend.py line 576:
`"\n".flatten(output_lines[-10:]) if output_lines else "Unknown error"`. -/
def errorDetail (output_lines : List (List Char)) : List Char :=
  if output_lines.isEmpty then "Unknown error".toList
  else List.intercalate ['\n'] (lastN 10 output_lines)

/-- backend.py `run_refrakt_job`, the segment after `await process.wait()`
(lines 550-581).  `model_name` is the value `extract_model_name` produced
before the process was spawned (line 502; the claims in scope exercise
string-or-absent results).  On exit code zero the reconciliation runs only
when both identifiers are truthy, and its outcome is discarded; the record
then becomes `completed` with a result path.  On non-zero exit the record
becomes `error` with the tail of the output as detail.  Both branches bump
`updated_at`. -/
def run_refrakt_job_finish (fs : FS) (job_id : String) (config_path : FsPath)
    (model_name : Option String) (returncode : Int)
    (output_lines : List (List Char)) (job : JobRec) (now : Nat) : JobRec × FS :=
  if returncode == 0 then
    let experiment_id := (extract_experiment_id output_lines).map
      (fun t => String.mk t)
    let fs' :=
      if optStrTruthy experiment_id && optStrTruthy model_name then
        let r1 := copy_checkpoint_files_to_job_dir fs job_id experiment_id
          model_name config_path
        let r2 := consolidate_log_files r1.2 job_id model_name
        r2.2
      else fs
    ({ job with status := "completed",
                result_path := some ("./jobs/" ++ job_id),
                updated_at := now }, fs')
  else
    ({ job with status := "error",
                error := some (errorDetail output_lines),
                updated_at := now }, fs)

/-! ### The stream tokenizer (backend.py lines 234-323)

The byte stream is the list of successive results of `stream.read(chunk_size)`;
the stream ends after the last listed chunk (Python sees it as an empty read,
which also makes an explicit empty chunk in the middle of the list end the
stream).  Bytes are modelled as characters: the claims quantify over text
streams, where UTF-8 decoding with replacement characters is the identity, so
the `except` arms around `.decode` are unreachable. -/

/-- Python `str.rstrip()` (ASCII whitespace). -/
def rstripChars (l : List Char) : List Char := (l.reverse.dropWhile pyIsSpace).reverse

/-- Python `str.lstrip()` (ASCII whitespace). -/
def lstripChars (l : List Char) : List Char := l.dropWhile pyIsSpace

/-- Python `str.strip()` (ASCII whitespace). -/
def stripChars (l : List Char) : List Char := rstripChars (lstripChars l)

/-- Python `str.rstrip('\r')`. -/
def rstripCRs (l : List Char) : List Char :=
  (l.reverse.dropWhile (fun c => c == '\r')).reverse

/-- Python `buffer.split(sep, 1)`: `some (before, after)` of the first
occurrence of `sep`, `none` when `sep` does not occur. -/
def splitFirst (sep : Char) : List Char → Option (List Char × List Char)
  | [] => none
  | c :: cs =>
    if c == sep then some ([], cs)
    else (splitFirst sep cs).map (fun p => (c :: p.1, p.2))

/-- The inner `while processed:` loop of `read_stream_chunks` (lines
268-319), run after a chunk has been appended to the buffer: repeatedly
(1) split off the text before the first `\n`, strip trailing `\r` and
whitespace, and yield it when non-empty; else (2) the same at the first `\r`
(without the `rstrip('\r')`); else (3) when more than `chunk_size * 4`
characters are buffered, flush the first `chunk_size * 2` of them, rstripped,
yielding when non-empty; else stop.  Each iteration consumes at least one
character when `chunk_size ≥ 1`, so fuel equal to the buffer length runs the
loop to quiescence; the callers below always supply that much. -/
def processBuffer : Nat → Nat → List Char → List (List Char) × List Char
  | 0, _, buffer => ([], buffer)
  | fuel + 1, chunkSize, buffer =>
    match splitFirst '\n' buffer with
    | some (lineBytes, rest) =>
      let lineText := stripChars (rstripCRs lineBytes)
      let r := processBuffer fuel chunkSize rest
      (if lineText.isEmpty then r.1 else lineText :: r.1, r.2)
    | none =>
      match splitFirst '\r' buffer with
      | some (lineBytes, rest) =>
        let lineText := stripChars lineBytes
        let r := processBuffer fuel chunkSize rest
        (if lineText.isEmpty then r.1 else lineText :: r.1, r.2)
      | none =>
        if buffer.length > chunkSize * 4 then
          let chunkText := rstripChars (buffer.take (chunkSize * 2))
          let r := processBuffer fuel chunkSize (buffer.drop (chunkSize * 2))
          (if chunkText.isEmpty then r.1 else chunkText :: r.1, r.2)
        else ([], buffer)

/-- The outer `while True:` read loop (lines 248-319) up to end-of-stream:
returns the tokens yielded while chunks keep arriving, and the buffer content
at end-of-stream. -/
def readLoop (chunkSize : Nat) : List (List Char) → List Char → List (List Char) × List Char
  | [], buffer => ([], buffer)
  | c :: rest, buffer =>
    if c.isEmpty then ([], buffer)
    else
      let pb := processBuffer (buffer ++ c).length chunkSize (buffer ++ c)
      let r := readLoop chunkSize rest pb.2
      (pb.1 ++ r.1, r.2)

/-- The end-of-stream flush (lines 252-260): the remaining buffer, rstripped,
as one final token when non-empty. -/
def finalFlushTok (buffer : List Char) : List (List Char) :=
  let remaining := rstripChars buffer
  if remaining.isEmpty then [] else [remaining]

/-- backend.py `read_stream_chunks` (lines 234-323): the full token sequence
produced for a given chunk sequence and chunk size (default 8192). -/
def read_stream_chunks (chunkSize : Nat) (chunks : List (List Char)) :
    List (List Char) :=
  let r := readLoop chunkSize chunks []
  r.1 ++ finalFlushTok r.2

/-! ### Splitting text at separator characters (specification side) -/

/-- `\n` or `\r`, the two separators `read_stream_chunks` recognises. -/
def isSepCh (c : Char) : Bool := c == '\n' || c == '\r'

/-- Split at every character satisfying `p` (Python `text.split(sep)`
generalised to a predicate): the possibly-empty segments between separators.
The result is never empty, and is `[l]` when no separator occurs. -/
def splitP (p : Char → Bool) : List Char → List (List Char)
  | [] => [[]]
  | c :: cs =>
    match splitP p cs with
    | [] => [[]]
    | s :: ss => if p c then [] :: s :: ss else (c :: s) :: ss

/-- The final segment: the text after the last separator (the whole text
when no separator occurs). -/
def lastSegP (p : Char → Bool) (l : List Char) : List Char :=
  (splitP p l).getLastD []

/-- The non-whitespace characters of `l`, in order ("the text modulo
whitespace"). -/
def removeWs (l : List Char) : List Char := l.filter (fun c => !pyIsSpace c)

example : extract_model_name
    (pydict [("model", pydict [("name", pystr "autoencoder"),
                               ("params", pydict [("variant", pystr "vq")])])]) =
    .ok (pystr "autoencoder_vq") := rfl

example : extract_model_name
    (pydict [("model", pydict [("name", pystr "autoencoder")])]) =
    .ok (pystr "autoencoder") := rfl

example : extract_model_name
    (pydict [("model", pydict [("name", pystr "autoencoder"),
                               ("params", pydict [])])]) =
    .ok (pystr "autoencoder_simple") := rfl

example : extract_model_name (pydict [("model", pystr "resnet18")]) =
    .error .attributeError := rfl

example : extract_experiment_id
    ["noise".toList, "🔬 Experiment ID: 20251105_174807".toList, "more".toList] =
    some "20251105_174807".toList := by decide

example : extract_experiment_id ["Experiment ID: 1234".toList] = none := by decide

/-- C1 (counterexample): the claim says a config whose model name is
`"autoencoder"` but which has no `"params"` sub-field yields
`"autoencoder_simple"`; the code leaves the name untouched, returning plain
`"autoencoder"`. -/
theorem extract_model_name_no_params_counterexample :
    extract_model_name (pydict [("model", pydict [("name", pystr "autoencoder")])]) =
      .ok (pystr "autoencoder") ∧ "autoencoder" ≠ "autoencoder_simple" :=
  ⟨rfl, by decide⟩

/-- C1 (amended): `extract_model_name` maps the vq-variant autoencoder config
to `"autoencoder_vq"`; a `"params"` dict without `"variant"` to
`"autoencoder_simple"`; an autoencoder config with no `"params"` key to the
raw `"autoencoder"`; any other model name to the raw name; and a config with
no `"model"` key to `None`. -/
theorem extract_model_name_spec :
    (extract_model_name
        (pydict [("model", pydict [("name", pystr "autoencoder"),
                                   ("params", pydict [("variant", pystr "vq")])])]) =
      .ok (pystr "autoencoder_vq"))
    ∧ (extract_model_name
        (pydict [("model", pydict [("name", pystr "autoencoder"),
                                   ("params", pydict [])])]) =
      .ok (pystr "autoencoder_simple"))
    ∧ (extract_model_name
        (pydict [("model", pydict [("name", pystr "autoencoder")])]) =
      .ok (pystr "autoencoder"))
    ∧ (∀ (es : List (String × PyVal)) (n : String),
        es.lookup "name" = some (pystr n) → n ≠ "autoencoder" →
        extract_model_name (pydict [("model", pydict es)]) = .ok (pystr n))
    ∧ (∀ es : List (String × PyVal),
        es.lookup "model" = none →
        extract_model_name (pydict es) = .ok pynone) := by
  refine ⟨rfl, rfl, rfl, ?_, ?_⟩
  · intro es n hname hne
    have hbeq : (n == "autoencoder") = false := beq_eq_false_iff_ne.mpr hne
    simp [extract_model_name, pyFalsy, pyContains, pySubscript, pyGet, pyEqStrLit,
      hname, hbeq]
  · intro es hnone
    by_cases hes : es.isEmpty
    · simp [extract_model_name, pyFalsy, hes]
    · simp [extract_model_name, pyFalsy, pyContains, hes, hnone]

/-- C1 (witness): the raw-name and missing-model cases at concrete inputs. -/
theorem extract_model_name_spec_witness :
    extract_model_name (pydict [("model", pydict [("name", pystr "resnet18")])]) =
      .ok (pystr "resnet18")
    ∧ extract_model_name (pydict [("other", pynone)]) = .ok pynone :=
  ⟨extract_model_name_spec.2.2.2.1 [("name", pystr "resnet18")] "resnet18" rfl (by decide),
   extract_model_name_spec.2.2.2.2 [("other", pynone)] rfl⟩

/-- C8 (counterexample): on a config whose `"model"` value is not a dict the
code raises `AttributeError` (`.get` on a `str`), so `extract_model_name`
does not tolerate every input value. -/
theorem extract_model_name_throws_counterexample :
    extract_model_name (pydict [("model", pystr "resnet18")]) =
      .error PyErr.attributeError := rfl

/-- C8 (amended): `extract_model_name` never raises on a well-shaped
configuration: any falsy value, or any dict whose `model` entry (when
present) is a dict whose `params` entry (when present) is a dict. -/
theorem extract_model_name_no_throw (config : PyVal)
    (h : wellShapedConfig config = true) :
    isOkResult (extract_model_name config) = true := by
  match config with
  | pynone => rfl
  | pybool b =>
    simp only [wellShapedConfig, pyFalsy, Bool.not_eq_true'] at h
    subst h; rfl
  | pyint n =>
    simp only [wellShapedConfig, pyFalsy, beq_iff_eq] at h
    subst h; rfl
  | pystr s =>
    simp only [wellShapedConfig, pyFalsy, beq_iff_eq] at h
    subst h; rfl
  | pylist xs =>
    simp only [wellShapedConfig, pyFalsy, List.isEmpty_iff] at h
    subst h; rfl
  | pydict es =>
    cases hm : es.lookup "model" with
    | none =>
      by_cases hes : es.isEmpty
      · simp [extract_model_name, pyFalsy, hes, isOkResult]
      · simp [extract_model_name, pyFalsy, pyContains, hes, hm, isOkResult]
    | some v =>
      have hes : es.isEmpty = false := by
        cases es with
        | nil => simp at hm
        | cons a as => rfl
      rw [wellShapedConfig, hm] at h
      cases v with
      | pydict ms =>
        cases hname : (ms.lookup "name").getD pynone with
        | pystr nm =>
          by_cases hauto : (nm == "autoencoder") = true
          · cases hp : ms.lookup "params" with
            | none =>
              simp [extract_model_name, pyFalsy, pyContains, pySubscript, pyGet,
                pyEqStrLit, hes, hm, hname, hp, hauto, isOkResult]
            | some p =>
              cases p with
              | pydict ps =>
                simp [extract_model_name, pyFalsy, pyContains, pySubscript, pyGet,
                  pyEqStrLit, hes, hm, hname, hp, hauto, isOkResult]
              | pynone => simp [paramsShapeOk, hp] at h
              | pybool b => simp [paramsShapeOk, hp] at h
              | pyint n => simp [paramsShapeOk, hp] at h
              | pystr s => simp [paramsShapeOk, hp] at h
              | pylist xs => simp [paramsShapeOk, hp] at h
          · simp [extract_model_name, pyFalsy, pyContains, pySubscript, pyGet,
              pyEqStrLit, hes, hm, hname, hauto, isOkResult]
        | pynone =>
          simp [extract_model_name, pyFalsy, pyContains, pySubscript, pyGet,
            pyEqStrLit, hes, hm, hname, isOkResult]
        | pybool b =>
          simp [extract_model_name, pyFalsy, pyContains, pySubscript, pyGet,
            pyEqStrLit, hes, hm, hname, isOkResult]
        | pyint n =>
          simp [extract_model_name, pyFalsy, pyContains, pySubscript, pyGet,
            pyEqStrLit, hes, hm, hname, isOkResult]
        | pylist xs =>
          simp [extract_model_name, pyFalsy, pyContains, pySubscript, pyGet,
            pyEqStrLit, hes, hm, hname, isOkResult]
        | pydict ds =>
          simp [extract_model_name, pyFalsy, pyContains, pySubscript, pyGet,
            pyEqStrLit, hes, hm, hname, isOkResult]
      | pynone => simp at h
      | pybool b => simp at h
      | pyint n => simp at h
      | pystr s => simp at h
      | pylist xs => simp at h

/-- C8 (witness): a concrete well-shaped config is handled without raising. -/
theorem extract_model_name_no_throw_witness :
    wellShapedConfig (pydict [("model", pydict [("name", pystr "resnet18")])]) = true
    ∧ isOkResult (extract_model_name
        (pydict [("model", pydict [("name", pystr "resnet18")])])) = true :=
  ⟨rfl, extract_model_name_no_throw _ rfl⟩

/-- C5: `extract_experiment_id` scans the lines in order, skipping every line
on which the pattern search fails, and returns the captured
date-underscore-time token of the first line whose search succeeds (absent
when no line matches); including the spec's concrete examples, with the
earlier of two matching lines winning. -/
theorem extract_experiment_id_spec :
    (∀ (pre : List (List Char)) (line : List Char) (rest : List (List Char))
        (t : List Char),
        (∀ l ∈ pre, searchExpId l = none) →
        containsSub expIdMarker line = true →
        searchExpId line = some t →
        extract_experiment_id (pre ++ line :: rest) = some t)
    ∧ (∀ lines : List (List Char), (∀ l ∈ lines, searchExpId l = none) →
        extract_experiment_id lines = none)
    ∧ extract_experiment_id
        ["noise".toList, "🔬 Experiment ID: 20251105_174807".toList, "more".toList] =
        some "20251105_174807".toList
    ∧ extract_experiment_id
        ["🔬 Experiment ID: 20250101_000000".toList,
         "Experiment ID: 20251105_174807".toList] =
        some "20250101_000000".toList := by
  refine ⟨?_, ?_, by decide, by decide⟩
  · intro pre line rest t hpre hcont hsearch
    induction pre with
    | nil => simp [extract_experiment_id, hcont, hsearch]
    | cons a as ih =>
      have ha : searchExpId a = none := hpre a (by simp)
      have has : ∀ l ∈ as, searchExpId l = none := fun l hl => hpre l (by simp [hl])
      by_cases hc : containsSub expIdMarker a = true
      · simpa [extract_experiment_id, hc, ha] using ih has
      · simpa [extract_experiment_id, hc] using ih has
  · intro lines h
    induction lines with
    | nil => rfl
    | cons a as ih =>
      have ha : searchExpId a = none := h a (by simp)
      have has : ∀ l ∈ as, searchExpId l = none := fun l hl => h l (by simp [hl])
      by_cases hc : containsSub expIdMarker a = true
      · simpa [extract_experiment_id, hc, ha] using ih has
      · simpa [extract_experiment_id, hc] using ih has

/-- C5 (witness): the marker line after one noise line is found, and its
token is returned. -/
theorem extract_experiment_id_spec_witness :
    extract_experiment_id
      (["noise".toList] ++ "🔬 Experiment ID: 20251105_174807".toList :: ["more".toList]) =
      some "20251105_174807".toList :=
  extract_experiment_id_spec.1 ["noise".toList] _ ["more".toList] _
    (by decide) (by decide) (by decide)

/-- C2: whenever the process exits non-zero, the job record's status becomes
`"error"` and its error detail is the newline-join of the last ten output
lines (all of them when fewer than ten), or `"Unknown error"` when no output
line was captured. -/
theorem job_error_on_nonzero_exit (fs : FS) (job_id : String) (config_path : FsPath)
    (model_name : Option String) (rc : Int) (lines : List (List Char))
    (job : JobRec) (now : Nat) (h : rc ≠ 0) :
    (run_refrakt_job_finish fs job_id config_path model_name rc lines job now).1.status
      = "error"
    ∧ (run_refrakt_job_finish fs job_id config_path model_name rc lines job now).1.error
      = some (if lines = [] then "Unknown error".toList
              else List.intercalate ['\n'] (lines.drop (lines.length - 10))) := by
  have hrc : (rc == 0) = false := by simpa using h
  refine ⟨by simp [run_refrakt_job_finish, hrc], ?_⟩
  simp only [run_refrakt_job_finish, hrc, Bool.false_eq_true, if_false]
  simp [errorDetail, lastN, List.isEmpty_iff]

/-- C2 (witness): exit code 137 with two captured lines yields status
`"error"` and the two lines joined by a newline. -/
theorem job_error_on_nonzero_exit_witness :
    (run_refrakt_job_finish ⟨[], []⟩ "j" [] none 137 ["a".toList, "bb".toList]
        ⟨"running", none, none, 0⟩ 1).1.status = "error"
    ∧ (run_refrakt_job_finish ⟨[], []⟩ "j" [] none 137 ["a".toList, "bb".toList]
        ⟨"running", none, none, 0⟩ 1).1.error = some "a\nbb".toList := by
  have h := job_error_on_nonzero_exit ⟨[], []⟩ "j" [] none 137
    ["a".toList, "bb".toList] ⟨"running", none, none, 0⟩ 1 (by decide)
  exact ⟨h.1, by rw [h.2]; rfl⟩

/-- C3: reconciliation against a missing checkpoint directory returns
`False` and leaves the filesystem untouched (no exception is modelled to
escape), and after a zero exit code the job record ends `"completed"` with
its error field unchanged, whatever the reconciliation did. -/
theorem reconciliation_failure_nonfatal :
    (∀ (fs : FS) (jid eid mn : String) (cpath : FsPath),
        fs.pathExists ["checkpoints", mn ++ "_" ++ eid] = false →
        copy_checkpoint_files_to_job_dir fs jid (some eid) (some mn) cpath
          = (false, fs))
    ∧ (∀ (fs : FS) (jid : String) (cpath : FsPath) (mname : Option String)
        (lines : List (List Char)) (job : JobRec) (now : Nat),
        (run_refrakt_job_finish fs jid cpath mname 0 lines job now).1.status
          = "completed"
        ∧ (run_refrakt_job_finish fs jid cpath mname 0 lines job now).1.error
          = job.error) := by
  refine ⟨?_, ?_⟩
  · intro fs jid eid mn cpath hne
    by_cases heid : (eid == "") = true
    · simp [copy_checkpoint_files_to_job_dir, optStrTruthy, heid]
    · by_cases hmn : (mn == "") = true
      · simp [copy_checkpoint_files_to_job_dir, optStrTruthy, heid, hmn]
      · simp [copy_checkpoint_files_to_job_dir, optStrTruthy, heid, hmn, hne]
  · intro fs jid cpath mname lines job now
    exact ⟨by simp [run_refrakt_job_finish], by simp [run_refrakt_job_finish]⟩

/-- C3 (witness): on an empty filesystem the checkpoint directory is absent,
the copy reports failure without effect, and a zero-exit job is completed. -/
theorem reconciliation_failure_nonfatal_witness :
    copy_checkpoint_files_to_job_dir ⟨[], []⟩ "j" (some "20250101_000000")
        (some "resnet18") ["tmp", "cfg.yaml"] = (false, ⟨[], []⟩)
    ∧ (run_refrakt_job_finish ⟨[], []⟩ "j" ["tmp", "cfg.yaml"] (some "resnet18") 0
        [] ⟨"running", none, none, 0⟩ 1).1.status = "completed" :=
  ⟨reconciliation_failure_nonfatal.1 ⟨[], []⟩ "j" "20250101_000000" "resnet18"
      ["tmp", "cfg.yaml"] (by decide),
   (reconciliation_failure_nonfatal.2 ⟨[], []⟩ "j" ["tmp", "cfg.yaml"]
      (some "resnet18") [] ⟨"running", none, none, 0⟩ 1).1⟩

example : read_stream_chunks 8192 [['a', '\n', 'b', '\n']] = [['a'], ['b']] := by decide

example : read_stream_chunks 8192 [['a', '\r', 'b', '\n']] = [['a', '\r', 'b']] := by
  decide

example : read_stream_chunks 8192 [['p', '1', '\r'], ['p', '2', '\r'], ['p', '3', '\n']]
    = [['p', '1'], ['p', '2'], ['p', '3']] := by decide

example : read_stream_chunks 1 [['a'], ['a'], ['a'], ['a'], ['a'], ['a'], ['\n']]
    = [['a', 'a'], ['a', 'a', 'a', 'a']] := by decide

example : read_stream_chunks 8192 [['a', '\n', ' ', 'b']] = [['a'], [' ', 'b']] := by
  decide

example : read_stream_chunks 1 [[' '], [' '], [' '], [' '], [' ']] = [] := by decide

example : splitP (fun c => c == '\n') "a\nb\n".toList = [['a'], ['b'], []] := by decide

example : lastSegP isSepCh "a\rb".toList = ['b'] := by decide

/-- C4 (counterexample): a newline-terminated carriage-return-free stream
with a line longer than four chunk-sizes hits the forced flush, and the
token sequence is not the split of the text on newlines with stripped
segments and empties removed. -/
theorem read_stream_chunks_split_counterexample :
    (∀ ch ∈ [['a'], ['a'], ['a'], ['a'], ['a'], ['a'], ['\n']].flatten, (ch == '\r') = false)
    ∧ lastSegP (fun c => c == '\n')
        [['a'], ['a'], ['a'], ['a'], ['a'], ['a'], ['\n']].flatten = []
    ∧ read_stream_chunks 1 [['a'], ['a'], ['a'], ['a'], ['a'], ['a'], ['\n']]
        ≠ ((splitP (fun c => c == '\n')
              [['a'], ['a'], ['a'], ['a'], ['a'], ['a'], ['\n']].flatten).map
            stripChars).filter (fun t => !t.isEmpty) := by decide

/-- C6 (counterexample): a whitespace-only unterminated stream longer than
four chunk-sizes produces no token at all — in particular no forced-flush
token — because the flushed text is empty after `rstrip`. -/
theorem read_stream_chunks_flush_counterexample :
    (∀ ch ∈ [[' '], [' '], [' '], [' '], [' ']].flatten, isSepCh ch = false)
    ∧ ([[' '], [' '], [' '], [' '], [' ']].flatten).length > 1 * 4
    ∧ read_stream_chunks 1 [[' '], [' '], [' '], [' '], [' ']] = [] := by decide

/-- C7 (counterexample): the end-of-stream token keeps its leading
whitespace (the code only `rstrip`s it), so it is not the trimmed final
segment the claim describes. -/
theorem read_stream_chunks_trailing_counterexample :
    read_stream_chunks 8192 [['a', '\n', ' ', 'b']] = [['a'], [' ', 'b']]
    ∧ stripChars [' ', 'b'] = ['b']
    ∧ [' ', 'b'] ≠ ['b'] := by decide

/-- C10 (counterexample): a bare carriage return followed later in the same
buffered text by a newline survives inside a token, because the newline
split is tried first and only trailing `\r`s are stripped. -/
theorem read_stream_chunks_cr_counterexample :
    read_stream_chunks 8192 [['a', '\r', 'b', '\n']] = [['a', '\r', 'b']]
    ∧ '\r' ∈ ['a', '\r', 'b'] := by decide

/-! ### Basic facts about `splitP`, `splitFirst` and the strip functions -/

theorem splitP_ne_nil (p : Char → Bool) : ∀ l : List Char, splitP p l ≠ []
  | [] => by simp [splitP]
  | c :: cs => by
    rw [splitP]
    rcases h : splitP p cs with _ | ⟨s, ss⟩
    · exact absurd h (splitP_ne_nil p cs)
    · by_cases hp : p c = true <;> simp [hp]

theorem splitP_cons_pos {p : Char → Bool} {c : Char} (cs : List Char)
    (hp : p c = true) : splitP p (c :: cs) = [] :: splitP p cs := by
  rw [splitP]
  rcases h : splitP p cs with _ | ⟨s, ss⟩
  · exact absurd h (splitP_ne_nil p cs)
  · simp [hp]

theorem splitP_cons_neg {p : Char → Bool} {c : Char} {cs s : List Char}
    {ss : List (List Char)} (hp : p c = false) (h : splitP p cs = s :: ss) :
    splitP p (c :: cs) = (c :: s) :: ss := by
  rw [splitP, h, hp]
  simp

/-- Characters of a segment come from the original list. -/
theorem splitP_mem_of_mem {p : Char → Bool} :
    ∀ {l : List Char} {s : List Char}, s ∈ splitP p l → ∀ {c}, c ∈ s → c ∈ l
  | [], s, hs, c, hc => by
    simp [splitP] at hs
    subst hs
    simp at hc
  | a :: l, s, hs, c, hc => by
    rcases h : splitP p l with _ | ⟨t, ts⟩
    · exact absurd h (splitP_ne_nil p l)
    · by_cases hp : p a = true
      · rw [splitP_cons_pos l hp] at hs
        rcases List.mem_cons.mp hs with rfl | hs'
        · simp at hc
        · exact List.mem_cons_of_mem a (splitP_mem_of_mem hs' hc)
      · have hp' : p a = false := by simpa using hp
        rw [splitP_cons_neg hp' h] at hs
        rcases List.mem_cons.mp hs with rfl | hs'
        · rcases List.mem_cons.mp hc with rfl | hc'
          · exact List.mem_cons_self _ _
          · exact List.mem_cons_of_mem a
              (splitP_mem_of_mem (show t ∈ splitP p l by rw [h]; exact List.mem_cons_self t ts) hc')
        · exact List.mem_cons_of_mem a
            (splitP_mem_of_mem (show s ∈ splitP p l by rw [h]; exact List.mem_cons_of_mem t hs') hc)

/-- No segment contains a separator. -/
theorem splitP_sep_free {p : Char → Bool} :
    ∀ {l : List Char} {s : List Char}, s ∈ splitP p l → ∀ {c}, c ∈ s → p c = false
  | [], s, hs, c, hc => by
    simp [splitP] at hs
    subst hs
    simp at hc
  | a :: l, s, hs, c, hc => by
    rcases h : splitP p l with _ | ⟨t, ts⟩
    · exact absurd h (splitP_ne_nil p l)
    · by_cases hp : p a = true
      · rw [splitP_cons_pos l hp] at hs
        rcases List.mem_cons.mp hs with rfl | hs'
        · simp at hc
        · exact splitP_sep_free hs' hc
      · have hp' : p a = false := by simpa using hp
        rw [splitP_cons_neg hp' h] at hs
        rcases List.mem_cons.mp hs with rfl | hs'
        · rcases List.mem_cons.mp hc with rfl | hc'
          · exact hp'
          · exact splitP_sep_free (show t ∈ splitP p l by rw [h]; exact List.mem_cons_self t ts) hc'
        · exact splitP_sep_free (show s ∈ splitP p l by rw [h]; exact List.mem_cons_of_mem t hs') hc

/-- A separator-free list is a single segment. -/
theorem splitP_eq_single {p : Char → Bool} :
    ∀ {l : List Char}, (∀ c ∈ l, p c = false) → splitP p l = [l]
  | [], _ => rfl
  | a :: l, h => by
    have hl : splitP p l = [l] :=
      splitP_eq_single (fun c hc => h c (List.mem_cons_of_mem a hc))
    rw [splitP_cons_neg (h a (List.mem_cons_self a l)) hl]

/-- Splitting across a separator preceded by separator-free text. -/
theorem splitP_free_append {p : Char → Bool} {s : Char} (hs : p s = true) :
    ∀ {x : List Char} (y : List Char), (∀ c ∈ x, p c = false) →
      splitP p (x ++ s :: y) = x :: splitP p y
  | [], y, _ => by simpa using splitP_cons_pos y hs
  | c :: x, y, hx => by
    have hx' : ∀ d ∈ x, p d = false := fun d hd => hx d (List.mem_cons_of_mem c hd)
    rw [List.cons_append,
      splitP_cons_neg (hx c (List.mem_cons_self c x)) (splitP_free_append hs y hx')]

theorem splitFirst_eq_none {sep : Char} :
    ∀ {l : List Char}, splitFirst sep l = none ↔ sep ∉ l
  | [] => by simp [splitFirst]
  | c :: cs => by
    rw [splitFirst]
    by_cases hc : (c == sep) = true
    · have hcs : c = sep := beq_iff_eq.mp hc
      subst hcs
      simp
    · have hc' : c ≠ sep := by simpa using hc
      rw [if_neg hc]
      constructor
      · intro h hmem
        rcases List.mem_cons.mp hmem with h1 | hmem'
        · exact hc' h1.symm
        · rcases hsf : splitFirst sep cs with _ | pr
          · exact (splitFirst_eq_none.mp hsf) hmem'
          · rw [hsf] at h; simp at h
      · intro h
        have hcs : sep ∉ cs := fun hm => h (List.mem_cons_of_mem c hm)
        rw [splitFirst_eq_none.mpr hcs]
        rfl

theorem splitFirst_eq_some {sep : Char} :
    ∀ {l a b : List Char}, splitFirst sep l = some (a, b) →
      l = a ++ sep :: b ∧ sep ∉ a
  | [], a, b, h => by simp [splitFirst] at h
  | c :: cs, a, b, h => by
    rw [splitFirst] at h
    by_cases hc : (c == sep) = true
    · rw [if_pos hc] at h
      obtain ⟨rfl, rfl⟩ : ([] : List Char) = a ∧ cs = b := by
        simpa [Prod.ext_iff, eq_comm] using h
      simp [beq_iff_eq.mp hc]
    · rw [if_neg hc] at h
      rcases ha : splitFirst sep cs with _ | ⟨a', b'⟩
      · rw [ha] at h; simp at h
      · rw [ha] at h
        obtain ⟨rfl, rfl⟩ : c :: a' = a ∧ b' = b := by
          simpa [Prod.ext_iff, eq_comm] using h
        obtain ⟨hcs, hnotin⟩ := splitFirst_eq_some ha
        refine ⟨by rw [hcs]; simp, ?_⟩
        simp only [List.mem_cons, not_or]
        exact ⟨fun hsc => (by simpa using hc : c ≠ sep) hsc.symm, hnotin⟩

theorem getLastD_congr {α : Type} {l : List α} (h : l ≠ []) (d₁ d₂ : α) :
    l.getLastD d₁ = l.getLastD d₂ := by
  cases l with
  | nil => exact absurd rfl h
  | cons a m => rw [List.getLastD_cons, List.getLastD_cons]

theorem getLastD_append_right {α : Type} :
    ∀ (A : List α) {B : List α} (d : α), B ≠ [] →
      (A ++ B).getLastD d = B.getLastD d
  | [], _, _, _ => rfl
  | a :: A, B, d, hB => by
    rw [List.cons_append, List.getLastD_cons,
      getLastD_append_right A a hB, getLastD_congr hB a d]

theorem dropLast_append_getLastD {α : Type} :
    ∀ {l : List α} (d : α), l ≠ [] → l.dropLast ++ [l.getLastD d] = l
  | [], _, h => absurd rfl h
  | [a], d, _ => rfl
  | a :: b :: m, d, _ => by
    rw [List.dropLast_cons₂, List.getLastD_cons, List.cons_append,
      dropLast_append_getLastD a (by simp)]

/-- Decomposing a split of appended text: the left factor contributes all of
its segments but the last, which continues into the right factor. -/
theorem splitP_append_eq (p : Char → Bool) :
    ∀ (x y : List Char),
      splitP p (x ++ y) = (splitP p x).dropLast ++ splitP p (lastSegP p x ++ y)
  | [], y => by simp [splitP, lastSegP]
  | c :: x', y => by
    rcases hx : splitP p x' with _ | ⟨t, ts⟩
    · exact absurd hx (splitP_ne_nil p x')
    · by_cases hp : p c = true
      · rw [List.cons_append, splitP_cons_pos (x' ++ y) hp, splitP_append_eq p x' y,
          splitP_cons_pos x' hp]
        have hlast : lastSegP p (c :: x') = lastSegP p x' := by
          rw [lastSegP, splitP_cons_pos x' hp, List.getLastD_cons, lastSegP]
        rw [hlast, List.dropLast_cons_of_ne_nil (splitP_ne_nil p x'), List.cons_append]
      · have hp' : p c = false := by simpa using hp
        cases ts with
        | nil =>
          have hlx : lastSegP p x' = t := by rw [lastSegP, hx]; rfl
          have hcx : splitP p (c :: x') = [c :: t] := splitP_cons_neg hp' hx
          have hlcx : lastSegP p (c :: x') = c :: t := by rw [lastSegP, hcx]; rfl
          have ihx := splitP_append_eq p x' y
          rw [hx, hlx] at ihx
          simp only [List.dropLast_single, List.nil_append] at ihx
          rcases hy : splitP p (t ++ y) with _ | ⟨u, us⟩
          · exact absurd hy (splitP_ne_nil p _)
          · rw [List.cons_append, splitP_cons_neg hp' (ihx.trans hy), hcx, hlcx]
            have : splitP p ((c :: t) ++ y) = (c :: u) :: us := by
              rw [List.cons_append, splitP_cons_neg hp' hy]
            rw [this]
            rfl
        | cons v vs =>
          have hcx : splitP p (c :: x') = (c :: t) :: v :: vs := splitP_cons_neg hp' hx
          have hlx : lastSegP p x' = (v :: vs).getLastD [] := by
            rw [lastSegP, hx, List.getLastD_cons, getLastD_congr (by simp) t []]
          have hlcx : lastSegP p (c :: x') = (v :: vs).getLastD [] := by
            rw [lastSegP, hcx, List.getLastD_cons, getLastD_congr (by simp) (c :: t) []]
          have ihx := splitP_append_eq p x' y
          rw [hx, hlx] at ihx
          rw [List.dropLast_cons₂] at ihx
          rw [List.cons_append, splitP_cons_neg hp' (by rw [ihx, List.cons_append]),
            hcx, hlcx, List.dropLast_cons₂]
          rfl

/-- The last segment of appended text depends on the left factor only
through its own last segment. -/
theorem lastSegP_append (p : Char → Bool) (x y : List Char) :
    lastSegP p (x ++ y) = lastSegP p (lastSegP p x ++ y) := by
  rw [lastSegP, splitP_append_eq p x y,
    getLastD_append_right _ _ (splitP_ne_nil p _)]
  rfl

/-- The last segment is itself a segment. -/
theorem lastSegP_mem (p : Char → Bool) (l : List Char) :
    lastSegP p l ∈ splitP p l := by
  have h := dropLast_append_getLastD ([] : List Char) (splitP_ne_nil p l)
  exact h ▸ List.mem_append_right _ (List.mem_singleton.mpr rfl)

/-- The last segment contains no separators. -/
theorem lastSegP_sep_free (p : Char → Bool) (l : List Char) :
    ∀ c ∈ lastSegP p l, p c = false :=
  fun _ hc => splitP_sep_free (lastSegP_mem p l) hc

/-- Splitting separator-free text followed by anything: the first segment of
the rest is extended on the left. -/
theorem splitP_free_head (p : Char → Bool) :
    ∀ {z : List Char} (y : List Char), (∀ c ∈ z, p c = false) →
      ∃ u us, splitP p y = u :: us ∧ splitP p (z ++ y) = (z ++ u) :: us
  | [], y, _ => by
    rcases hy : splitP p y with _ | ⟨u, us⟩
    · exact absurd hy (splitP_ne_nil p y)
    · exact ⟨u, us, rfl, by simpa using hy⟩
  | c :: z', y, hz => by
    obtain ⟨u, us, hy, hz'⟩ :=
      splitP_free_head p y (fun d hd => hz d (List.mem_cons_of_mem c hd))
    exact ⟨u, us, hy, by rw [List.cons_append, splitP_cons_neg
      (hz c (List.mem_cons_self c z')) hz', List.cons_append]⟩

/-- A bound on all segments of appended text bounds the segments of the
left factor. -/
theorem splitP_bound_left {p : Char → Bool} {x y : List Char} {B : Nat}
    (h : ∀ seg ∈ splitP p (x ++ y), seg.length ≤ B) :
    ∀ seg ∈ splitP p x, seg.length ≤ B := by
  intro seg hseg
  have hdecomp := dropLast_append_getLastD [] (splitP_ne_nil p x)
  rw [← hdecomp] at hseg
  rcases List.mem_append.mp hseg with hinit | hlast
  · exact h seg (by
      rw [splitP_append_eq p x y]
      exact List.mem_append_left _ hinit)
  · obtain ⟨u, us, _, hzy⟩ :=
      splitP_free_head p y (lastSegP_sep_free p x)
    have hmem : (lastSegP p x ++ u) ∈ splitP p (x ++ y) := by
      rw [splitP_append_eq p x y, hzy]
      exact List.mem_append_right _ (List.mem_cons_self _ _)
    have hb := h _ hmem
    rw [List.mem_singleton.mp hlast]
    calc (lastSegP p x).length ≤ (lastSegP p x ++ u).length := by
          rw [List.length_append]; omega
      _ ≤ B := hb

/-- Segments of the right part (after a separator) are segments of the
whole. -/
theorem splitP_mem_right {p : Char → Bool} {s : Char} (hs : p s = true)
    (x y : List Char) {seg : List Char} (h : seg ∈ splitP p y) :
    seg ∈ splitP p (x ++ s :: y) := by
  rw [splitP_append_eq p x (s :: y),
    splitP_free_append hs _ (lastSegP_sep_free p x)]
  exact List.mem_append_right _ (List.mem_cons_of_mem _ h)

/-- The last segment ignores everything before a separator. -/
theorem lastSegP_after_sep {p : Char → Bool} {s : Char} (hs : p s = true)
    (x y : List Char) : lastSegP p (x ++ s :: y) = lastSegP p y := by
  rw [lastSegP, splitP_append_eq p x (s :: y),
    splitP_free_append hs _ (lastSegP_sep_free p x),
    getLastD_append_right _ _ (by simp), List.getLastD_cons,
    getLastD_congr (splitP_ne_nil p y) (lastSegP p x) []]
  rfl

theorem dropWhile_eq_self_of_neg {p : Char → Bool} :
    ∀ {l : List Char}, (∀ c ∈ l, p c = false) → l.dropWhile p = l
  | [], _ => rfl
  | a :: l, h => by
    rw [List.dropWhile_cons, if_neg (by simp [h a (List.mem_cons_self a l)])]

/-- `rstrip('\r')` on text with no carriage return is the identity. -/
theorem rstripCRs_eq_self {l : List Char} (h : ∀ c ∈ l, (c == '\r') = false) :
    rstripCRs l = l := by
  rw [rstripCRs, dropWhile_eq_self_of_neg (fun c hc => h c (List.mem_reverse.mp hc)),
    List.reverse_reverse]

theorem mem_rstripChars {l : List Char} {c : Char} (h : c ∈ rstripChars l) : c ∈ l := by
  rw [rstripChars, List.mem_reverse] at h
  exact List.mem_reverse.mp ((List.dropWhile_sublist _).mem h)

theorem mem_lstripChars {l : List Char} {c : Char} (h : c ∈ lstripChars l) : c ∈ l :=
  (List.dropWhile_sublist _).mem h

theorem mem_stripChars {l : List Char} {c : Char} (h : c ∈ stripChars l) : c ∈ l :=
  mem_lstripChars (mem_rstripChars h)

theorem mem_rstripCRs {l : List Char} {c : Char} (h : c ∈ rstripCRs l) : c ∈ l := by
  rw [rstripCRs, List.mem_reverse] at h
  exact List.mem_reverse.mp ((List.dropWhile_sublist _).mem h)

/-- `rstrip` only discards whitespace: the non-whitespace text is unchanged. -/
theorem removeWs_rstripChars (l : List Char) :
    removeWs (rstripChars l) = removeWs l := by
  have hdecomp : l = rstripChars l ++ (l.reverse.takeWhile pyIsSpace).reverse := by
    conv_lhs => rw [← List.reverse_reverse l,
      ← List.takeWhile_append_dropWhile (p := pyIsSpace) (l := l.reverse)]
    rw [List.reverse_append, rstripChars]
  conv_rhs => rw [hdecomp]
  rw [removeWs, removeWs, List.filter_append]
  have hnil : List.filter (fun c => !pyIsSpace c) (l.reverse.takeWhile pyIsSpace).reverse
      = [] := by
    rw [List.filter_eq_nil_iff]
    intro a ha
    have := List.mem_takeWhile_imp (List.mem_reverse.mp ha)
    simp [this]
  rw [hnil, List.append_nil]

/-! ### Step equations for the inner loop -/

theorem processBuffer_zero (cs : Nat) (buf : List Char) :
    processBuffer 0 cs buf = ([], buf) := rfl

theorem processBuffer_nl_step {buf a rest : List Char} (fuel cs : Nat)
    (hn : splitFirst '\n' buf = some (a, rest)) :
    processBuffer (fuel + 1) cs buf =
      ((if (stripChars (rstripCRs a)).isEmpty then (processBuffer fuel cs rest).1
        else stripChars (rstripCRs a) :: (processBuffer fuel cs rest).1),
       (processBuffer fuel cs rest).2) := by
  rw [processBuffer, hn]

theorem processBuffer_cr_step {buf a rest : List Char} (fuel cs : Nat)
    (hn : splitFirst '\n' buf = none) (hr : splitFirst '\r' buf = some (a, rest)) :
    processBuffer (fuel + 1) cs buf =
      ((if (stripChars a).isEmpty then (processBuffer fuel cs rest).1
        else stripChars a :: (processBuffer fuel cs rest).1),
       (processBuffer fuel cs rest).2) := by
  rw [processBuffer, hn, hr]

theorem processBuffer_flush_step {buf : List Char} (fuel cs : Nat)
    (hn : splitFirst '\n' buf = none) (hr : splitFirst '\r' buf = none)
    (hlen : buf.length > cs * 4) :
    processBuffer (fuel + 1) cs buf =
      ((if (rstripChars (buf.take (cs * 2))).isEmpty
          then (processBuffer fuel cs (buf.drop (cs * 2))).1
        else rstripChars (buf.take (cs * 2)) ::
          (processBuffer fuel cs (buf.drop (cs * 2))).1),
       (processBuffer fuel cs (buf.drop (cs * 2))).2) := by
  rw [processBuffer, hn, hr]
  simp only [if_pos hlen]

theorem processBuffer_rest_step {buf : List Char} (fuel cs : Nat)
    (hn : splitFirst '\n' buf = none) (hr : splitFirst '\r' buf = none)
    (hlen : ¬ buf.length > cs * 4) :
    processBuffer (fuel + 1) cs buf = ([], buf) := by
  rw [processBuffer, hn, hr]
  simp only [if_neg hlen]

/-! ### C10: no token contains a newline -/

theorem processBuffer_no_nl (cs : Nat) :
    ∀ (fuel : Nat) (buf : List Char),
      (buf.length ≤ fuel ∨ ∀ ch ∈ buf, (ch == '\n') = false) →
      (∀ t ∈ (processBuffer fuel cs buf).1, ∀ ch ∈ t, (ch == '\n') = false)
      ∧ (∀ ch ∈ (processBuffer fuel cs buf).2, (ch == '\n') = false)
  | 0, buf, h => by
    rw [processBuffer_zero]
    rcases h with hf | hnl
    · have hbuf : buf = [] := List.length_eq_zero.mp (Nat.le_zero.mp hf)
      subst hbuf
      exact ⟨by simp, by simp⟩
    · exact ⟨by simp, hnl⟩
  | fuel + 1, buf, h => by
    rcases hn : splitFirst '\n' buf with _ | ⟨a, rest⟩
    · have hnotin : '\n' ∉ buf := splitFirst_eq_none.mp hn
      have hnl : ∀ ch ∈ buf, (ch == '\n') = false := by
        intro ch hch
        by_cases hc : ch = '\n'
        · exact absurd (hc ▸ hch) hnotin
        · simpa using hc
      rcases hr : splitFirst '\r' buf with _ | ⟨a, rest⟩
      · by_cases hlen : buf.length > cs * 4
        · rw [processBuffer_flush_step fuel cs hn hr hlen]
          have hrest : ∀ ch ∈ buf.drop (cs * 2), (ch == '\n') = false :=
            fun ch hch => hnl ch ((List.drop_sublist _ _).mem hch)
          have ih := processBuffer_no_nl cs fuel (buf.drop (cs * 2)) (Or.inr hrest)
          refine ⟨?_, ih.2⟩
          intro t ht ch hch
          by_cases he : (rstripChars (buf.take (cs * 2))).isEmpty
          · rw [if_pos he] at ht
            exact ih.1 t ht ch hch
          · rw [if_neg he] at ht
            rcases List.mem_cons.mp ht with rfl | ht'
            · exact hnl ch ((List.take_sublist _ _).mem (mem_rstripChars hch))
            · exact ih.1 t ht' ch hch
        · rw [processBuffer_rest_step fuel cs hn hr hlen]
          exact ⟨by simp, hnl⟩
      · obtain ⟨hbuf, -⟩ := splitFirst_eq_some hr
        have hrest : ∀ ch ∈ rest, (ch == '\n') = false := by
          intro ch hch
          exact hnl ch (hbuf ▸ List.mem_append_right a (List.mem_cons_of_mem _ hch))
        have ha : ∀ ch ∈ a, (ch == '\n') = false := by
          intro ch hch
          exact hnl ch (hbuf ▸ List.mem_append_left _ hch)
        rw [processBuffer_cr_step fuel cs hn hr]
        have ih := processBuffer_no_nl cs fuel rest (Or.inr hrest)
        refine ⟨?_, ih.2⟩
        intro t ht ch hch
        by_cases he : (stripChars a).isEmpty
        · rw [if_pos he] at ht
          exact ih.1 t ht ch hch
        · rw [if_neg he] at ht
          rcases List.mem_cons.mp ht with rfl | ht'
          · exact ha ch (mem_stripChars hch)
          · exact ih.1 t ht' ch hch
    · obtain ⟨hbuf, hnotin⟩ := splitFirst_eq_some hn
      have hfuel : buf.length ≤ fuel + 1 := by
        rcases h with hf | hnl
        · exact hf
        · exact absurd (hnl '\n' (hbuf ▸ List.mem_append_right a (List.mem_cons_self _ _)))
            (by simp)
      have hrfuel : rest.length ≤ fuel := by
        rw [hbuf, List.length_append, List.length_cons] at hfuel
        omega
      have ha : ∀ ch ∈ a, (ch == '\n') = false := by
        intro ch hch
        by_cases hc : ch = '\n'
        · exact absurd (hc ▸ hch) hnotin
        · simpa using hc
      rw [processBuffer_nl_step fuel cs hn]
      have ih := processBuffer_no_nl cs fuel rest (Or.inl hrfuel)
      refine ⟨?_, ih.2⟩
      intro t ht ch hch
      by_cases he : (stripChars (rstripCRs a)).isEmpty
      · rw [if_pos he] at ht
        exact ih.1 t ht ch hch
      · rw [if_neg he] at ht
        rcases List.mem_cons.mp ht with rfl | ht'
        · exact ha ch (mem_rstripCRs (mem_stripChars hch))
        · exact ih.1 t ht' ch hch

theorem readLoop_no_nl (cs : Nat) :
    ∀ (chunks : List (List Char)) (buffer : List Char),
      (∀ ch ∈ buffer, (ch == '\n') = false) →
      (∀ t ∈ (readLoop cs chunks buffer).1, ∀ ch ∈ t, (ch == '\n') = false)
      ∧ (∀ ch ∈ (readLoop cs chunks buffer).2, (ch == '\n') = false)
  | [], buffer, hbuf => ⟨by simp [readLoop], by simpa [readLoop] using hbuf⟩
  | c :: rest, buffer, hbuf => by
    rw [readLoop]
    by_cases hc : c.isEmpty
    · rw [if_pos hc]
      exact ⟨by simp, hbuf⟩
    · rw [if_neg hc]
      have hpb := processBuffer_no_nl cs (buffer ++ c).length (buffer ++ c)
        (Or.inl le_rfl)
      have ih := readLoop_no_nl cs rest
        (processBuffer (buffer ++ c).length cs (buffer ++ c)).2 hpb.2
      refine ⟨?_, ih.2⟩
      intro t ht
      rcases List.mem_append.mp ht with h1 | h2
      · exact hpb.1 t h1
      · exact ih.1 t h2

/-- C10 (amended): no emitted token contains a newline character; the
newline-split tokens have the `\r` of `\r\n` stripped, and every token from
the carriage-return, forced-flush and end-of-stream paths is also free of
`\r`, but a token produced by the newline split can retain an interior bare
carriage return (the newline check runs first). -/
theorem read_stream_chunks_no_newline (cs : Nat) (chunks : List (List Char))
    (t : List Char) (ht : t ∈ read_stream_chunks cs chunks) :
    ∀ ch ∈ t, (ch == '\n') = false := by
  rw [read_stream_chunks] at ht
  have h := readLoop_no_nl cs chunks [] (by simp)
  rcases List.mem_append.mp ht with h1 | h2
  · exact h.1 t h1
  · rw [finalFlushTok] at h2
    by_cases he : (rstripChars (readLoop cs chunks []).2).isEmpty
    · rw [if_pos he] at h2
      simp at h2
    · rw [if_neg he] at h2
      rw [List.mem_singleton.mp h2]
      exact fun ch hch => h.2 ch (mem_rstripChars hch)

/-- C10 (witness): the token of a concrete stream, checked newline-free via
the theorem. -/
theorem read_stream_chunks_no_newline_witness :
    ['a'] ∈ read_stream_chunks 1 [['a', '\n']]
    ∧ ∀ ch ∈ ['a'], (ch == '\n') = false :=
  ⟨by decide, read_stream_chunks_no_newline 1 [['a', '\n']] ['a'] (by decide)⟩

/-! ### C7: the buffer left at end-of-stream is the final segment -/

theorem processBuffer_nl_snd {buf a rest : List Char} (fuel cs : Nat)
    (hn : splitFirst '\n' buf = some (a, rest)) :
    (processBuffer (fuel + 1) cs buf).2 = (processBuffer fuel cs rest).2 := by
  rw [processBuffer_nl_step fuel cs hn]

theorem processBuffer_cr_snd {buf a rest : List Char} (fuel cs : Nat)
    (hn : splitFirst '\n' buf = none) (hr : splitFirst '\r' buf = some (a, rest)) :
    (processBuffer (fuel + 1) cs buf).2 = (processBuffer fuel cs rest).2 := by
  rw [processBuffer_cr_step fuel cs hn hr]

theorem processBuffer_tail (cs : Nat) :
    ∀ (fuel : Nat) (buf : List Char),
      buf.length ≤ fuel →
      (∀ seg ∈ splitP isSepCh buf, seg.length ≤ cs * 4) →
      (processBuffer fuel cs buf).2 = lastSegP isSepCh buf
  | 0, buf, hfuel, _ => by
    have hbuf : buf = [] := List.length_eq_zero.mp (Nat.le_zero.mp hfuel)
    subst hbuf
    rfl
  | fuel + 1, buf, hfuel, hseg => by
    rcases hn : splitFirst '\n' buf with _ | ⟨a, rest⟩
    · rcases hr : splitFirst '\r' buf with _ | ⟨a, rest⟩
      · have hfree : ∀ c ∈ buf, isSepCh c = false := by
          intro c hc
          have h1 : c ≠ '\n' := fun e => (splitFirst_eq_none.mp hn) (e ▸ hc)
          have h2 : c ≠ '\r' := fun e => (splitFirst_eq_none.mp hr) (e ▸ hc)
          simp [isSepCh, beq_eq_false_iff_ne.mpr h1, beq_eq_false_iff_ne.mpr h2]
        have hsingle := splitP_eq_single hfree
        have hlen : ¬ buf.length > cs * 4 := by
          have := hseg buf (by rw [hsingle]; exact List.mem_singleton.mpr rfl)
          omega
        rw [processBuffer_rest_step fuel cs hn hr hlen, lastSegP, hsingle]
        rfl
      · obtain ⟨hbuf, -⟩ := splitFirst_eq_some hr
        subst hbuf
        have hfuel' : rest.length ≤ fuel := by
          rw [List.length_append, List.length_cons] at hfuel
          omega
        have hsegr : ∀ seg ∈ splitP isSepCh rest, seg.length ≤ cs * 4 :=
          fun seg hm => hseg seg (splitP_mem_right (by decide) a rest hm)
        rw [processBuffer_cr_snd fuel cs hn hr,
          processBuffer_tail cs fuel rest hfuel' hsegr,
          lastSegP_after_sep (by decide) a rest]
    · obtain ⟨hbuf, -⟩ := splitFirst_eq_some hn
      subst hbuf
      have hfuel' : rest.length ≤ fuel := by
        rw [List.length_append, List.length_cons] at hfuel
        omega
      have hsegr : ∀ seg ∈ splitP isSepCh rest, seg.length ≤ cs * 4 :=
        fun seg hm => hseg seg (splitP_mem_right (by decide) a rest hm)
      rw [processBuffer_nl_snd fuel cs hn,
        processBuffer_tail cs fuel rest hfuel' hsegr,
        lastSegP_after_sep (by decide) a rest]

theorem readLoop_tail (cs : Nat) :
    ∀ (chunks : List (List Char)) (buffer : List Char),
      (∀ c ∈ chunks, c.isEmpty = false) →
      (∀ ch ∈ buffer, isSepCh ch = false) →
      (∀ seg ∈ splitP isSepCh (buffer ++ chunks.flatten), seg.length ≤ cs * 4) →
      (readLoop cs chunks buffer).2 = lastSegP isSepCh (buffer ++ chunks.flatten)
  | [], buffer, _, hbuf, _ => by
    rw [readLoop, List.flatten_nil, List.append_nil, lastSegP, splitP_eq_single hbuf]
    rfl
  | c :: rest, buffer, hne, hbuf, hseg => by
    rw [readLoop, if_neg (by simp [hne c (List.mem_cons_self c rest)])]
    have hjoin : buffer ++ (c :: rest).flatten = (buffer ++ c) ++ rest.flatten := by
      rw [List.flatten_cons, List.append_assoc]
    rw [hjoin] at hseg ⊢
    have hsegl : ∀ seg ∈ splitP isSepCh (buffer ++ c), seg.length ≤ cs * 4 :=
      splitP_bound_left hseg
    have hpb2 : (processBuffer (buffer ++ c).length cs (buffer ++ c)).2
        = lastSegP isSepCh (buffer ++ c) :=
      processBuffer_tail cs _ _ le_rfl hsegl
    have hsegr : ∀ seg ∈ splitP isSepCh (lastSegP isSepCh (buffer ++ c) ++ rest.flatten),
        seg.length ≤ cs * 4 := by
      intro seg hm
      apply hseg
      rw [splitP_append_eq isSepCh (buffer ++ c) rest.flatten]
      exact List.mem_append_right _ hm
    have ih := readLoop_tail cs rest (lastSegP isSepCh (buffer ++ c))
      (fun d hd => hne d (List.mem_cons_of_mem c hd))
      (lastSegP_sep_free isSepCh (buffer ++ c)) hsegr
    show (readLoop cs rest (processBuffer (buffer ++ c).length cs (buffer ++ c)).2).2 = _
    rw [hpb2, ih, ← lastSegP_append isSepCh (buffer ++ c) rest.flatten]

/-- C7 (amended): when no forced flush can occur (every separator-free run
is at most four chunk-sizes long), the tokenizer emits, at end-of-stream,
exactly one trailing token equal to the final segment (the text after the
last `\n` or `\r`) with its trailing whitespace removed — leading whitespace
is preserved — and no trailing token when that segment is whitespace-only. -/
theorem read_stream_chunks_trailing (cs : Nat) (chunks : List (List Char))
    (hne : ∀ c ∈ chunks, c.isEmpty = false)
    (hseg : ∀ seg ∈ splitP isSepCh chunks.flatten, seg.length ≤ cs * 4) :
    read_stream_chunks cs chunks =
      (readLoop cs chunks []).1 ++
        (if (rstripChars (lastSegP isSepCh chunks.flatten)).isEmpty then []
         else [rstripChars (lastSegP isSepCh chunks.flatten)]) := by
  have h2 : (readLoop cs chunks []).2 = lastSegP isSepCh chunks.flatten := by
    have h := readLoop_tail cs chunks [] hne (by simp) (by simpa using hseg)
    simpa using h
  show (readLoop cs chunks []).1 ++ finalFlushTok (readLoop cs chunks []).2 = _
  rw [h2, finalFlushTok]

/-- C7 (witness): a concrete stream with trailing segment `" b"`: one final
token `" b"` (trailing-stripped only) is appended. -/
theorem read_stream_chunks_trailing_witness :
    read_stream_chunks 2 [['a', '\n', ' ', 'b']] =
      (readLoop 2 [['a', '\n', ' ', 'b']] []).1 ++
        (if (rstripChars (lastSegP isSepCh [['a', '\n', ' ', 'b']].flatten)).isEmpty
          then []
         else [rstripChars (lastSegP isSepCh [['a', '\n', ' ', 'b']].flatten)]) :=
  read_stream_chunks_trailing 2 [['a', '\n', ' ', 'b']] (by decide) (by decide)

/-! ### C6: forced flush and whitespace-modulo reconstruction -/

theorem removeWs_append (x y : List Char) :
    removeWs (x ++ y) = removeWs x ++ removeWs y := by
  rw [removeWs, removeWs, removeWs, List.filter_append]

theorem readLoop_cons_step (cs : Nat) (c : List Char) (rest : List (List Char))
    (buffer : List Char) (hc : c.isEmpty = false) :
    readLoop cs (c :: rest) buffer =
      ((processBuffer (buffer ++ c).length cs (buffer ++ c)).1
         ++ (readLoop cs rest
              (processBuffer (buffer ++ c).length cs (buffer ++ c)).2).1,
       (readLoop cs rest
          (processBuffer (buffer ++ c).length cs (buffer ++ c)).2).2) := by
  rw [readLoop, if_neg (by simp [hc])]

theorem processBuffer_noop {buf : List Char} (fuel cs : Nat)
    (hsep : ∀ ch ∈ buf, isSepCh ch = false) (hlen : ¬ buf.length > cs * 4) :
    processBuffer fuel cs buf = ([], buf) := by
  cases fuel with
  | zero => rfl
  | succ f =>
    have hn : splitFirst '\n' buf = none :=
      splitFirst_eq_none.mpr (fun hm => absurd (hsep '\n' hm) (by decide))
    have hr : splitFirst '\r' buf = none :=
      splitFirst_eq_none.mpr (fun hm => absurd (hsep '\r' hm) (by decide))
    exact processBuffer_rest_step f cs hn hr hlen

theorem processBuffer_sepFree (cs : Nat) (hcs : 1 ≤ cs) :
    ∀ (fuel : Nat) (buf : List Char),
      buf.length ≤ fuel →
      (∀ ch ∈ buf, isSepCh ch = false) →
      (∀ ch ∈ (processBuffer fuel cs buf).2, isSepCh ch = false)
      ∧ (processBuffer fuel cs buf).2.length ≤ cs * 4
      ∧ removeWs ((processBuffer fuel cs buf).1.flatten
            ++ (processBuffer fuel cs buf).2)
          = removeWs buf
  | 0, buf, hfuel, _ => by
    have hbuf : buf = [] := List.length_eq_zero.mp (Nat.le_zero.mp hfuel)
    subst hbuf
    refine ⟨by simp [processBuffer_zero], by simp [processBuffer_zero], ?_⟩
    rw [processBuffer_zero]
    simp
  | fuel + 1, buf, hfuel, hsep => by
    have hn : splitFirst '\n' buf = none :=
      splitFirst_eq_none.mpr (fun hm => absurd (hsep '\n' hm) (by decide))
    have hr : splitFirst '\r' buf = none :=
      splitFirst_eq_none.mpr (fun hm => absurd (hsep '\r' hm) (by decide))
    by_cases hlen : buf.length > cs * 4
    · rw [processBuffer_flush_step fuel cs hn hr hlen]
      have hsepd : ∀ ch ∈ buf.drop (cs * 2), isSepCh ch = false :=
        fun ch hch => hsep ch ((List.drop_sublist _ _).mem hch)
      have hfueld : (buf.drop (cs * 2)).length ≤ fuel := by
        rw [List.length_drop]
        omega
      have ih := processBuffer_sepFree cs hcs fuel (buf.drop (cs * 2)) hfueld hsepd
      refine ⟨ih.1, ih.2.1, ?_⟩
      have hbufsplit : removeWs buf
          = removeWs (buf.take (cs * 2)) ++ removeWs (buf.drop (cs * 2)) := by
        rw [← removeWs_append, List.take_append_drop]
      by_cases he : (rstripChars (buf.take (cs * 2))).isEmpty
      · rw [if_pos he]
        have htake : removeWs (buf.take (cs * 2)) = [] := by
          rw [← removeWs_rstripChars, List.isEmpty_iff.mp he]
          rfl
        rw [hbufsplit, htake, List.nil_append]
        exact ih.2.2
      · rw [if_neg he]
        rw [List.flatten_cons, List.append_assoc, removeWs_append,
          removeWs_rstripChars, ih.2.2, hbufsplit]
    · rw [processBuffer_rest_step fuel cs hn hr hlen]
      refine ⟨hsep, ?_, by simp⟩
      have h : buf.length ≤ cs * 4 := by omega
      simpa using h

theorem readLoop_sepFree (cs : Nat) (hcs : 1 ≤ cs) :
    ∀ (chunks : List (List Char)) (buffer : List Char),
      (∀ c ∈ chunks, c.isEmpty = false) →
      (∀ ch ∈ buffer ++ chunks.flatten, isSepCh ch = false) →
      removeWs ((readLoop cs chunks buffer).1.flatten ++ (readLoop cs chunks buffer).2)
        = removeWs (buffer ++ chunks.flatten)
  | [], buffer, _, _ => by
    rw [readLoop]
    simp
  | c :: rest, buffer, hne, hsep => by
    rw [readLoop_cons_step cs c rest buffer (hne c (List.mem_cons_self c rest))]
    have hjoin : buffer ++ (c :: rest).flatten = (buffer ++ c) ++ rest.flatten := by
      rw [List.flatten_cons, List.append_assoc]
    rw [hjoin] at hsep ⊢
    set pb := processBuffer (buffer ++ c).length cs (buffer ++ c) with hpbdef
    set r := readLoop cs rest pb.2 with hrdef
    have hsepl : ∀ ch ∈ buffer ++ c, isSepCh ch = false :=
      fun ch hch => hsep ch (List.mem_append_left _ hch)
    have hpb := processBuffer_sepFree cs hcs (buffer ++ c).length (buffer ++ c)
      le_rfl hsepl
    have hsepr : ∀ ch ∈ pb.2 ++ rest.flatten, isSepCh ch = false := by
      intro ch hch
      rcases List.mem_append.mp hch with h1 | h2
      · exact hpb.1 ch h1
      · exact hsep ch (List.mem_append_right _ h2)
    have ih := readLoop_sepFree cs hcs rest pb.2
      (fun d hd => hne d (List.mem_cons_of_mem c hd)) hsepr
    calc removeWs ((pb.1 ++ r.1).flatten ++ r.2)
        = removeWs (pb.1.flatten ++ (r.1.flatten ++ r.2)) := by
          rw [List.flatten_append, List.append_assoc]
      _ = removeWs pb.1.flatten ++ removeWs (r.1.flatten ++ r.2) := removeWs_append _ _
      _ = removeWs pb.1.flatten ++ (removeWs pb.2 ++ removeWs rest.flatten) := by
          rw [ih, removeWs_append]
      _ = (removeWs pb.1.flatten ++ removeWs pb.2) ++ removeWs rest.flatten :=
          (List.append_assoc _ _ _).symm
      _ = removeWs (pb.1.flatten ++ pb.2) ++ removeWs rest.flatten := by
          rw [removeWs_append]
      _ = removeWs (buffer ++ c) ++ removeWs rest.flatten := by
          rw [hpb.2.2]
      _ = removeWs ((buffer ++ c) ++ rest.flatten) := (removeWs_append _ _).symm

theorem processBuffer_flush_emits {buf : List Char} (fuel cs : Nat)
    (hsep : ∀ ch ∈ buf, isSepCh ch = false) (hlen : buf.length > cs * 4)
    (hws : (rstripChars (buf.take (cs * 2))).isEmpty = false)
    (hfuel : 1 ≤ fuel) :
    (processBuffer fuel cs buf).1 ≠ [] := by
  obtain ⟨f, rfl⟩ : ∃ f, fuel = f + 1 := ⟨fuel - 1, by omega⟩
  have hn : splitFirst '\n' buf = none :=
    splitFirst_eq_none.mpr (fun hm => absurd (hsep '\n' hm) (by decide))
  have hr : splitFirst '\r' buf = none :=
    splitFirst_eq_none.mpr (fun hm => absurd (hsep '\r' hm) (by decide))
  rw [processBuffer_flush_step f cs hn hr hlen]
  simp [hws]

theorem readLoop_flush_emits (cs : Nat) (hcs : 1 ≤ cs) :
    ∀ (chunks : List (List Char)) (buffer : List Char),
      (∀ c ∈ chunks, c.isEmpty = false) →
      (∀ ch ∈ buffer ++ chunks.flatten, isSepCh ch = false) →
      buffer.length ≤ cs * 4 →
      (buffer ++ chunks.flatten).length > cs * 4 →
      (rstripChars ((buffer ++ chunks.flatten).take (cs * 2))).isEmpty = false →
      (readLoop cs chunks buffer).1 ≠ []
  | [], buffer, _, _, hble, hlen, _ => by
    rw [List.flatten_nil, List.append_nil] at hlen
    omega
  | c :: rest, buffer, hne, hsep, hble, hlen, hws => by
    rw [readLoop_cons_step cs c rest buffer (hne c (List.mem_cons_self c rest))]
    have hjoin : buffer ++ (c :: rest).flatten = (buffer ++ c) ++ rest.flatten := by
      rw [List.flatten_cons, List.append_assoc]
    rw [hjoin] at hsep hlen hws
    have hsepl : ∀ ch ∈ buffer ++ c, isSepCh ch = false :=
      fun ch hch => hsep ch (List.mem_append_left _ hch)
    by_cases hblen : (buffer ++ c).length ≤ cs * 4
    · rw [processBuffer_noop _ cs hsepl (by omega)]
      simp only [List.nil_append]
      exact readLoop_flush_emits cs hcs rest (buffer ++ c)
        (fun d hd => hne d (List.mem_cons_of_mem c hd)) hsep hblen hlen hws
    · have hblen' : (buffer ++ c).length > cs * 4 := by omega
      have htake : (buffer ++ c).take (cs * 2)
          = ((buffer ++ c) ++ rest.flatten).take (cs * 2) :=
        (List.take_append_of_le_length (by omega)).symm
      have hpbne := processBuffer_flush_emits (buffer ++ c).length cs hsepl hblen'
        (by rw [htake]; exact hws) (by omega)
      exact List.append_ne_nil_of_left_ne_nil hpbne _

/-- C6 (amended): for an unterminated stream (no `\n` or `\r`) longer than
four chunk-sizes whose first two chunk-sizes are not whitespace-only, at
least one (forced-flush) token is emitted before end-of-stream; and for
every unterminated stream, of any length, the concatenation of all emitted
tokens reconstructs the original text modulo whitespace: the non-whitespace
characters are preserved exactly and in order. -/
theorem read_stream_chunks_overflow :
    (∀ (cs : Nat) (chunks : List (List Char)),
        1 ≤ cs →
        (∀ c ∈ chunks, c.isEmpty = false) →
        (∀ ch ∈ chunks.flatten, isSepCh ch = false) →
        chunks.flatten.length > cs * 4 →
        (rstripChars (chunks.flatten.take (cs * 2))).isEmpty = false →
        (readLoop cs chunks []).1 ≠ [])
    ∧ (∀ (cs : Nat) (chunks : List (List Char)),
        1 ≤ cs →
        (∀ c ∈ chunks, c.isEmpty = false) →
        (∀ ch ∈ chunks.flatten, isSepCh ch = false) →
        removeWs (read_stream_chunks cs chunks).flatten
          = removeWs chunks.flatten) := by
  constructor
  · intro cs chunks hcs hne hsep hlen hws
    exact readLoop_flush_emits cs hcs chunks [] hne (by simpa using hsep)
      (by simp) (by simpa using hlen) (by simpa using hws)
  · intro cs chunks hcs hne hsep
    have hloop := readLoop_sepFree cs hcs chunks [] hne (by simpa using hsep)
    rw [List.nil_append] at hloop
    show removeWs ((readLoop cs chunks []).1 ++ finalFlushTok (readLoop cs chunks []).2).flatten
        = removeWs chunks.flatten
    rw [List.flatten_append, removeWs_append, ← hloop, removeWs_append]
    congr 1
    rw [finalFlushTok]
    by_cases he : (rstripChars (readLoop cs chunks []).2).isEmpty
    · rw [if_pos he]
      have h0 : removeWs (readLoop cs chunks []).2 = [] := by
        conv_lhs => rw [← removeWs_rstripChars]
        rw [List.isEmpty_iff.mp he]
        rfl
      rw [h0]
      rfl
    · rw [if_neg he]
      show removeWs (rstripChars (readLoop cs chunks []).2 ++ []) = _
      rw [List.append_nil, removeWs_rstripChars]

/-- C6 (witness): a five-byte unterminated stream at chunk size one: the
forced flush emits a token, and the tokens reconstruct the text. -/
theorem read_stream_chunks_overflow_witness :
    (readLoop 1 [['a'], ['b'], ['c'], ['d'], ['e']] []).1 ≠ []
    ∧ removeWs (read_stream_chunks 1 [['a'], ['b'], ['c'], ['d'], ['e']]).flatten
      = removeWs [['a'], ['b'], ['c'], ['d'], ['e']].flatten :=
  ⟨read_stream_chunks_overflow.1 1 [['a'], ['b'], ['c'], ['d'], ['e']]
      (by decide) (by decide) (by decide) (by decide) (by decide),
   read_stream_chunks_overflow.2 1 [['a'], ['b'], ['c'], ['d'], ['e']]
      (by decide) (by decide) (by decide)⟩

/-! ### C4: newline-terminated streams -/

theorem processBuffer_newline_free (cs : Nat) :
    ∀ (fuel : Nat) (buf : List Char),
      buf.length ≤ fuel →
      (∀ ch ∈ buf, (ch == '\r') = false) →
      (∀ seg ∈ splitP (fun c => c == '\n') buf, seg.length ≤ cs * 4) →
      processBuffer fuel cs buf =
        ((((splitP (fun c => c == '\n') buf).dropLast).map stripChars).filter
            (fun t => !t.isEmpty),
         lastSegP (fun c => c == '\n') buf)
  | 0, buf, hfuel, _, _ => by
    have hbuf : buf = [] := List.length_eq_zero.mp (Nat.le_zero.mp hfuel)
    subst hbuf
    rfl
  | fuel + 1, buf, hfuel, hcr, hseg => by
    rcases hn : splitFirst '\n' buf with _ | ⟨a, rest⟩
    · have hr : splitFirst '\r' buf = none :=
        splitFirst_eq_none.mpr (fun hm => by simpa using hcr '\r' hm)
      have hfree : ∀ c ∈ buf, (c == '\n') = false :=
        fun c hc => beq_eq_false_iff_ne.mpr (fun e => (splitFirst_eq_none.mp hn) (e ▸ hc))
      have hsingle := splitP_eq_single hfree
      have hlen : ¬ buf.length > cs * 4 := by
        have := hseg buf (by rw [hsingle]; exact List.mem_singleton.mpr rfl)
        omega
      rw [processBuffer_rest_step fuel cs hn hr hlen, hsingle, lastSegP, hsingle]
      rfl
    · obtain ⟨hbuf, hna⟩ := splitFirst_eq_some hn
      subst hbuf
      have hfree : ∀ c ∈ a, (c == '\n') = false :=
        fun c hc => beq_eq_false_iff_ne.mpr (fun e => hna (e ▸ hc))
      have hsplit : splitP (fun c => c == '\n') (a ++ '\n' :: rest)
          = a :: splitP (fun c => c == '\n') rest :=
        splitP_free_append (by decide) rest hfree
      have hfuel' : rest.length ≤ fuel := by
        rw [List.length_append, List.length_cons] at hfuel
        omega
      have hcrr : ∀ ch ∈ rest, (ch == '\r') = false :=
        fun ch hch => hcr ch (List.mem_append_right a (List.mem_cons_of_mem _ hch))
      have hcra : ∀ ch ∈ a, (ch == '\r') = false :=
        fun ch hch => hcr ch (List.mem_append_left _ hch)
      have hsegr : ∀ seg ∈ splitP (fun c => c == '\n') rest, seg.length ≤ cs * 4 :=
        fun seg hm => hseg seg (by rw [hsplit]; exact List.mem_cons_of_mem a hm)
      have ih := processBuffer_newline_free cs fuel rest hfuel' hcrr hsegr
      rw [processBuffer_nl_step fuel cs hn, ih, rstripCRs_eq_self hcra, hsplit,
        lastSegP_after_sep (by decide) a rest]
      rw [List.dropLast_cons_of_ne_nil (splitP_ne_nil _ rest),
        List.map_cons, List.filter_cons]
      by_cases he : (stripChars a).isEmpty
      · simp [he, lastSegP]
      · simp [he, lastSegP]

theorem readLoop_newline_free (cs : Nat) :
    ∀ (chunks : List (List Char)) (buffer : List Char),
      (∀ c ∈ chunks, c.isEmpty = false) →
      (∀ ch ∈ buffer ++ chunks.flatten, (ch == '\r') = false) →
      (∀ ch ∈ buffer, (ch == '\n') = false) →
      (∀ seg ∈ splitP (fun c => c == '\n') (buffer ++ chunks.flatten),
        seg.length ≤ cs * 4) →
      readLoop cs chunks buffer =
        ((((splitP (fun c => c == '\n') (buffer ++ chunks.flatten)).dropLast).map
              stripChars).filter (fun t => !t.isEmpty),
         lastSegP (fun c => c == '\n') (buffer ++ chunks.flatten))
  | [], buffer, _, _, hbuf, _ => by
    rw [readLoop, List.flatten_nil, List.append_nil, lastSegP, splitP_eq_single hbuf]
    rfl
  | c :: rest, buffer, hne, hcr, hbuf, hseg => by
    rw [readLoop_cons_step cs c rest buffer (hne c (List.mem_cons_self c rest))]
    have hjoin : buffer ++ (c :: rest).flatten = (buffer ++ c) ++ rest.flatten := by
      rw [List.flatten_cons, List.append_assoc]
    rw [hjoin] at hcr hseg ⊢
    have hcrA : ∀ ch ∈ buffer ++ c, (ch == '\r') = false :=
      fun ch hch => hcr ch (List.mem_append_left _ hch)
    have hsegA := splitP_bound_left hseg
    have hpb := processBuffer_newline_free cs (buffer ++ c).length (buffer ++ c)
      le_rfl hcrA hsegA
    have hbuf' := lastSegP_sep_free (fun c => c == '\n') (buffer ++ c)
    have hcr' : ∀ ch ∈ lastSegP (fun c => c == '\n') (buffer ++ c) ++ rest.flatten,
        (ch == '\r') = false := by
      intro ch hch
      rcases List.mem_append.mp hch with h1 | h2
      · exact hcrA ch (splitP_mem_of_mem (lastSegP_mem _ (buffer ++ c)) h1)
      · exact hcr ch (List.mem_append_right _ h2)
    have hseg' : ∀ seg ∈ splitP (fun c => c == '\n')
        (lastSegP (fun c => c == '\n') (buffer ++ c) ++ rest.flatten),
        seg.length ≤ cs * 4 := by
      intro seg hm
      apply hseg
      rw [splitP_append_eq (fun c => c == '\n') (buffer ++ c) rest.flatten]
      exact List.mem_append_right _ hm
    have ih := readLoop_newline_free cs rest (lastSegP (fun c => c == '\n') (buffer ++ c))
      (fun d hd => hne d (List.mem_cons_of_mem c hd)) hcr' hbuf' hseg'
    have h1 : (((splitP (fun c => c == '\n') ((buffer ++ c) ++ rest.flatten)).dropLast).map
            stripChars).filter (fun t => !t.isEmpty)
        = (((splitP (fun c => c == '\n') (buffer ++ c)).dropLast).map stripChars).filter
            (fun t => !t.isEmpty)
          ++ (((splitP (fun c => c == '\n')
                (lastSegP (fun c => c == '\n') (buffer ++ c) ++ rest.flatten)).dropLast).map
              stripChars).filter (fun t => !t.isEmpty) := by
      rw [splitP_append_eq (fun c => c == '\n') (buffer ++ c) rest.flatten,
        List.dropLast_append_of_ne_nil _ (splitP_ne_nil _ _),
        List.map_append, List.filter_append]
    have h2 : lastSegP (fun c => c == '\n') ((buffer ++ c) ++ rest.flatten)
        = lastSegP (fun c => c == '\n')
            (lastSegP (fun c => c == '\n') (buffer ++ c) ++ rest.flatten) :=
      lastSegP_append _ _ _
    rw [hpb, ih, h1, h2]

/-- C4 (amended): for a byte stream of newline-terminated text — no
carriage returns, text ending in `\n` (equivalently, an empty final
segment) — in which no line exceeds four chunk-sizes (so the forced flush
never fires), the emitted token sequence is exactly the text split on `\n`,
each piece stripped of leading and trailing whitespace, with empty results
removed. -/
theorem read_stream_chunks_newline_split (cs : Nat) (chunks : List (List Char))
    (hne : ∀ c ∈ chunks, c.isEmpty = false)
    (hcr : ∀ ch ∈ chunks.flatten, (ch == '\r') = false)
    (hterm : lastSegP (fun c => c == '\n') chunks.flatten = [])
    (hseg : ∀ seg ∈ splitP (fun c => c == '\n') chunks.flatten,
      seg.length ≤ cs * 4) :
    read_stream_chunks cs chunks =
      ((splitP (fun c => c == '\n') chunks.flatten).map stripChars).filter
        (fun t => !t.isEmpty) := by
  have hloop := readLoop_newline_free cs chunks [] hne (by simpa using hcr)
    (by simp) (by simpa using hseg)
  rw [List.nil_append] at hloop
  show (readLoop cs chunks []).1 ++ finalFlushTok (readLoop cs chunks []).2 = _
  rw [hloop, hterm]
  have hdecomp : (splitP (fun c => c == '\n') chunks.flatten).dropLast
      ++ [lastSegP (fun c => c == '\n') chunks.flatten]
      = splitP (fun c => c == '\n') chunks.flatten :=
    dropLast_append_getLastD [] (splitP_ne_nil _ _)
  rw [hterm] at hdecomp
  conv_rhs => rw [← hdecomp]
  rw [List.map_append, List.filter_append]
  simp [finalFlushTok, stripChars, lstripChars, rstripChars]

/-- C4 (witness): `"a\nb\n"` in one chunk at chunk size two: tokens
`["a", "b"]`, matching the split-strip-filter of the text. -/
theorem read_stream_chunks_newline_split_witness :
    read_stream_chunks 2 [['a', '\n', 'b', '\n']] =
      ((splitP (fun c => c == '\n') [['a', '\n', 'b', '\n']].flatten).map
          stripChars).filter (fun t => !t.isEmpty) :=
  read_stream_chunks_newline_split 2 [['a', '\n', 'b', '\n']]
    (by decide) (by decide) (by decide) (by decide)

/-! ### C9: facts about the filesystem primitives and the move loop -/

theorem lookup_filter_ne {l : List (FsPath × String)} {p q : FsPath} (h : q ≠ p) :
    (l.filter (fun e => !(e.1 == p))).lookup q = l.lookup q := by
  induction l with
  | nil => rfl
  | cons e t ih =>
    obtain ⟨k, v⟩ := e
    by_cases hk : k = p
    · subst hk
      rw [List.filter_cons, if_neg (by simp)]
      rw [ih, List.lookup, show (q == k) = false from beq_eq_false_iff_ne.mpr h]
    · rw [List.filter_cons, if_pos (by simpa using hk)]
      by_cases hq : q = k
      · subst hq
        simp [List.lookup]
      · rw [List.lookup, List.lookup,
          show (q == k) = false from beq_eq_false_iff_ne.mpr hq]
        exact ih

theorem lookup_filter_self {l : List (FsPath × String)} {p : FsPath} :
    (l.filter (fun e => !(e.1 == p))).lookup p = none := by
  induction l with
  | nil => rfl
  | cons e t ih =>
    obtain ⟨k, v⟩ := e
    by_cases hk : k = p
    · subst hk
      rw [List.filter_cons, if_neg (by simp)]
      exact ih
    · rw [List.filter_cons, if_pos (by simpa using hk)]
      rw [List.lookup,
        show (p == k) = false from beq_eq_false_iff_ne.mpr (Ne.symm hk)]
      exact ih

theorem mem_of_lookup_isSome {l : List (FsPath × String)} {q : FsPath}
    (h : (l.lookup q).isSome = true) : ∃ v, (q, v) ∈ l := by
  induction l with
  | nil => simp [List.lookup] at h
  | cons e t ih =>
    obtain ⟨k, v⟩ := e
    by_cases hk : q = k
    · exact ⟨v, by simp [hk]⟩
    · rw [List.lookup, show (q == k) = false from beq_eq_false_iff_ne.mpr hk] at h
      obtain ⟨w, hw⟩ := ih h
      exact ⟨w, List.mem_cons_of_mem _ hw⟩

theorem lookup_isSome_of_mem {l : List (FsPath × String)} {q : FsPath} {v : String}
    (h : (q, v) ∈ l) : (l.lookup q).isSome = true := by
  induction l with
  | nil => simp at h
  | cons e t ih =>
    obtain ⟨k, w⟩ := e
    by_cases hk : q = k
    · simp [List.lookup, hk]
    · rw [List.lookup, show (q == k) = false from beq_eq_false_iff_ne.mpr hk]
      rcases List.mem_cons.mp h with h1 | h2
      · exact absurd (congrArg Prod.fst h1) hk
      · exact ih h2

theorem moveFile_dirs (fs : FS) (src dst : FsPath) :
    (fs.moveFile src dst).dirs = fs.dirs := by
  rw [FS.moveFile]
  cases fs.files.lookup src <;> rfl

theorem rmdirTolerant_files (fs : FS) (p : FsPath) :
    (fs.rmdirTolerant p).files = fs.files := by
  rw [FS.rmdirTolerant]
  split <;> rfl

theorem moveFile_lookup_dst {fs : FS} {src dst : FsPath} {c : String}
    (h : fs.files.lookup src = some c) :
    (fs.moveFile src dst).files.lookup dst = some c := by
  rw [FS.moveFile, h]
  simp [FS.setFile, FS.removeFile, List.lookup]

theorem moveFile_src_gone {fs : FS} {src dst : FsPath} (hne : src ≠ dst) :
    (fs.moveFile src dst).isFile src = false := by
  rw [FS.moveFile]
  cases h : fs.files.lookup src with
  | none => simp [FS.isFile, h]
  | some c =>
    rw [FS.isFile]
    show ((((dst, c) :: (fs.files.filter (fun e => !(e.1 == src))).filter
      (fun e => !(e.1 == dst)))).lookup src).isSome = false
    rw [List.lookup, show (src == dst) = false from beq_eq_false_iff_ne.mpr hne]
    rw [lookup_filter_ne hne, lookup_filter_self]
    rfl

theorem moveFile_isFile_imp {fs : FS} {src dst q : FsPath}
    (h : (fs.moveFile src dst).isFile q = true) : q = dst ∨ fs.isFile q = true := by
  rw [FS.moveFile] at h
  cases hl : fs.files.lookup src with
  | none => rw [hl] at h; exact Or.inr h
  | some c =>
    rw [hl] at h
    by_cases hq : q = dst
    · exact Or.inl hq
    · right
      by_cases hqs : q = src
      · subst hqs
        simp [FS.isFile, hl]
      · rw [FS.isFile] at h
        rw [show ((fs.removeFile src).setFile dst c).files
            = (dst, c) :: (fs.files.filter (fun e => !(e.1 == src))).filter
                (fun e => !(e.1 == dst)) from rfl] at h
        rw [List.lookup, show (q == dst) = false from beq_eq_false_iff_ne.mpr hq] at h
        rw [lookup_filter_ne hq, lookup_filter_ne hqs] at h
        exact h

theorem consolidateStep_dirs (jd sd : FsPath) (mn : String) (acc : FS)
    (item : String) : (consolidateStep jd sd mn acc item).dirs = acc.dirs := by
  rw [consolidateStep]
  split
  · exact moveFile_dirs _ _ _
  · rfl

theorem foldl_consolidateStep_dirs (jd sd : FsPath) (mn : String) :
    ∀ (items : List String) (acc : FS),
      (items.foldl (consolidateStep jd sd mn) acc).dirs = acc.dirs
  | [], _ => rfl
  | item :: rest, acc => by
    rw [List.foldl_cons, foldl_consolidateStep_dirs jd sd mn rest _,
      consolidateStep_dirs]

theorem singleton_append_ne {jd sd : FsPath} (hlen : jd.length < sd.length)
    (m x : String) : sd ++ [m] ≠ jd ++ [x] := by
  intro h
  have := congrArg List.length h
  simp only [List.length_append, List.length_singleton] at this
  omega

theorem consolidateStep_isFile_imp {jd sd : FsPath} {mn : String} {acc : FS}
    {item m : String} (hlen : jd.length < sd.length)
    (h : (consolidateStep jd sd mn acc item).isFile (sd ++ [m]) = true) :
    acc.isFile (sd ++ [m]) = true ∧ m ≠ item := by
  rw [consolidateStep] at h
  by_cases hf : acc.isFile (sd ++ [item])
  · rw [if_pos hf] at h
    have hne1 : sd ++ [m] ≠ jd ++ [mn ++ "_" ++ item] := singleton_append_ne hlen m _
    have hne2 : sd ++ [m] ≠ jd ++ [item] := singleton_append_ne hlen m _
    by_cases hp : acc.pathExists (jd ++ [item])
    · rw [if_pos hp] at h
      rcases moveFile_isFile_imp h with h1 | h2
      · exact absurd h1 hne1
      · refine ⟨h2, ?_⟩
        intro hm
        subst hm
        rw [moveFile_src_gone (singleton_append_ne hlen m _)] at h
        exact Bool.false_ne_true h
    · rw [if_neg hp] at h
      rcases moveFile_isFile_imp h with h1 | h2
      · exact absurd h1 hne2
      · refine ⟨h2, ?_⟩
        intro hm
        subst hm
        rw [moveFile_src_gone (singleton_append_ne hlen m _)] at h
        exact Bool.false_ne_true h
  · rw [if_neg hf] at h
    refine ⟨h, ?_⟩
    intro hm
    subst hm
    exact hf h

theorem foldl_consolidateStep_clears {jd sd : FsPath} {mn : String}
    (hlen : jd.length < sd.length) :
    ∀ (items : List String) (acc : FS),
      (∀ n, acc.isFile (sd ++ [n]) = true → n ∈ items) →
      ∀ n, (items.foldl (consolidateStep jd sd mn) acc).isFile (sd ++ [n]) = false
  | [], acc, hinv, n => by
    rw [List.foldl_nil]
    cases hf : acc.isFile (sd ++ [n]) with
    | false => rfl
    | true => exact absurd (hinv n hf) (List.not_mem_nil n)
  | item :: rest, acc, hinv, n => by
    rw [List.foldl_cons]
    refine foldl_consolidateStep_clears hlen rest _ ?_ n
    intro m hm
    obtain ⟨hacc, hne⟩ := consolidateStep_isFile_imp hlen hm
    rcases List.mem_cons.mp (hinv m hacc) with h1 | h2
    · exact absurd h1 hne
    · exact h2

theorem childName_self_append (p : FsPath) (n : String) :
    childName p (p ++ [n]) = some n := by
  rw [childName, if_pos List.dropLast_concat, List.getLast?_concat]

theorem childName_eq_some {p q : FsPath} {x : String}
    (h : childName p q = some x) : q = p ++ [x] := by
  rw [childName] at h
  by_cases hd : q.dropLast = p
  · rw [if_pos hd] at h
    have := List.dropLast_append_getLast? x h
    rw [hd] at this
    exact this.symm
  · rw [if_neg hd] at h
    exact absurd h (by simp)

theorem consolidate_log_files_eq {fs : FS} {jid mn : String}
    (hmn : (mn == "") = false)
    (hex : fs.pathExists (["jobs", jid] ++ [mn]) = true) :
    consolidate_log_files fs jid (some mn)
      = (true, ((fs.listdir (["jobs", jid] ++ [mn])).foldl
          (consolidateStep ["jobs", jid] (["jobs", jid] ++ [mn]) mn) fs).rmdirTolerant
          (["jobs", jid] ++ [mn])) := by
  rw [consolidate_log_files]
  simp [optStrTruthy, hmn, show fs.pathExists ["jobs", jid, mn] = true from hex]

theorem listdir_files_mem {fs : FS} {sd : FsPath} {n : String}
    (hf : fs.isFile (sd ++ [n]) = true) : n ∈ fs.listdir sd := by
  rw [FS.isFile] at hf
  obtain ⟨v, hv⟩ := mem_of_lookup_isSome hf
  rw [FS.listdir]
  exact List.mem_append_left _
    (List.mem_filterMap.mpr ⟨(sd ++ [n], v), hv, childName_self_append sd n⟩)

theorem rmdirTolerant_isFile (fs : FS) (p q : FsPath) :
    (fs.rmdirTolerant p).isFile q = fs.isFile q := by
  rw [FS.isFile, FS.isFile, rmdirTolerant_files]

theorem contains_filter_self (l : List FsPath) (p : FsPath) :
    (l.filter (fun d => !(d == p))).contains p = false := by
  induction l with
  | nil => rfl
  | cons d t ih =>
    by_cases hd : d = p
    · rw [List.filter_cons, if_neg (by simp [hd])]
      exact ih
    · rw [List.filter_cons, if_pos (by simpa using hd)]
      simp only [List.contains, List.elem]
      rw [show (p == d) = false from beq_eq_false_iff_ne.mpr (Ne.symm hd)]
      exact ih

theorem consolidate_clears_subdir {fs : FS} {jid mn : String}
    (hmn : (mn == "") = false)
    (hex : fs.pathExists (["jobs", jid] ++ [mn]) = true) :
    ∀ n, (consolidate_log_files fs jid (some mn)).2.isFile
      ((["jobs", jid] ++ [mn]) ++ [n]) = false := by
  intro n
  rw [consolidate_log_files_eq hmn hex]
  dsimp only
  rw [rmdirTolerant_isFile]
  exact foldl_consolidateStep_clears (by simp) (fs.listdir (["jobs", jid] ++ [mn])) fs
    (fun m hm => listdir_files_mem hm) n

theorem consolidate_removes_subdir {fs : FS} {jid mn : String}
    (hmn : (mn == "") = false)
    (hex : fs.pathExists (["jobs", jid] ++ [mn]) = true)
    (hnodir : ∀ d ∈ fs.dirs, childName (["jobs", jid] ++ [mn]) d = none) :
    (consolidate_log_files fs jid (some mn)).2.isDir (["jobs", jid] ++ [mn])
      = false := by
  rw [consolidate_log_files_eq hmn hex]
  dsimp only
  set sd : FsPath := ["jobs", jid] ++ [mn] with hsd
  set fs1 := (fs.listdir sd).foldl (consolidateStep ["jobs", jid] sd mn) fs with hfs1
  have hdirs1 : fs1.dirs = fs.dirs := foldl_consolidateStep_dirs _ _ _ _ _
  have hclear : ∀ x, fs1.isFile (sd ++ [x]) = false := fun x =>
    foldl_consolidateStep_clears (by simp [hsd]) (fs.listdir sd) fs
      (fun m hm => listdir_files_mem hm) x
  have hfiles : ∀ e ∈ fs1.files, childName sd e.1 = none := by
    intro e he
    cases hc : childName sd e.1 with
    | none => rfl
    | some x =>
      have hq : e.1 = sd ++ [x] := childName_eq_some hc
      have hf : fs1.isFile (sd ++ [x]) = true := by
        rw [FS.isFile]
        exact lookup_isSome_of_mem (v := e.2) (by rw [← hq]; exact he)
      rw [hclear x] at hf
      exact absurd hf (by simp)
  have hld : fs1.listdir sd = [] := by
    rw [FS.listdir, List.filterMap_eq_nil_iff.mpr hfiles, hdirs1,
      List.filterMap_eq_nil_iff.mpr hnodir]
    rfl
  rw [FS.rmdirTolerant, hld]
  cases hd : fs1.isDir sd with
  | false =>
    rw [if_neg (by simp [hd])]
    exact hd
  | true =>
    rw [if_pos (by simp [hd])]
    rw [FS.isDir]
    exact contains_filter_self fs1.dirs sd

theorem consolidate_keeps_subdir {fs : FS} {jid mn : String} {d : FsPath}
    (hmn : (mn == "") = false)
    (hex : fs.pathExists (["jobs", jid] ++ [mn]) = true)
    (hd : d ∈ fs.dirs)
    (hchild : (childName (["jobs", jid] ++ [mn]) d).isSome = true) :
    (consolidate_log_files fs jid (some mn)).2.isDir (["jobs", jid] ++ [mn])
      = fs.isDir (["jobs", jid] ++ [mn]) := by
  rw [consolidate_log_files_eq hmn hex]
  dsimp only
  set sd : FsPath := ["jobs", jid] ++ [mn] with hsd
  set fs1 := (fs.listdir sd).foldl (consolidateStep ["jobs", jid] sd mn) fs with hfs1
  have hdirs1 : fs1.dirs = fs.dirs := foldl_consolidateStep_dirs _ _ _ _ _
  obtain ⟨x, hx⟩ := Option.isSome_iff_exists.mp hchild
  have hmem : x ∈ fs1.listdir sd := by
    rw [FS.listdir]
    refine List.mem_append_right _ ?_
    rw [hdirs1]
    exact List.mem_filterMap.mpr ⟨d, hd, hx⟩
  have hne : fs1.listdir sd ≠ [] := List.ne_nil_of_mem hmem
  have hie : (fs1.listdir sd).isEmpty = false := by
    cases h : (fs1.listdir sd).isEmpty with
    | false => rfl
    | true => exact absurd (List.isEmpty_iff.mp h) hne
  rw [FS.rmdirTolerant, if_neg (by simp [hie])]
  rw [FS.isDir, FS.isDir, hdirs1]

theorem consolidateStep_move_plain {fs : FS} {jid mn item c : String}
    (h : fs.files.lookup ["jobs", jid, mn, item] = some c)
    (hp : fs.pathExists ["jobs", jid, item] = false) :
    (consolidateStep ["jobs", jid] ["jobs", jid, mn] mn fs item).files.lookup
        ["jobs", jid, item] = some c
    ∧ (consolidateStep ["jobs", jid] ["jobs", jid, mn] mn fs item).isFile
        ["jobs", jid, mn, item] = false := by
  have hf : fs.isFile (["jobs", jid, mn] ++ [item]) = true := by
    rw [FS.isFile]
    show (fs.files.lookup ["jobs", jid, mn, item]).isSome = true
    rw [h]
    rfl
  have hne : (["jobs", jid, mn, item] : FsPath) ≠ ["jobs", jid, item] := by
    intro e
    have := congrArg List.length e
    simp at this
  simp only [consolidateStep]
  rw [if_pos hf, if_neg (by simp [hp] : ¬ fs.pathExists (["jobs", jid] ++ [item]) = true)]
  exact ⟨moveFile_lookup_dst h, moveFile_src_gone hne⟩

theorem consolidateStep_move_renamed {fs : FS} {jid mn item c : String}
    (h : fs.files.lookup ["jobs", jid, mn, item] = some c)
    (hp : fs.pathExists ["jobs", jid, item] = true) :
    (consolidateStep ["jobs", jid] ["jobs", jid, mn] mn fs item).files.lookup
        ["jobs", jid, mn ++ "_" ++ item] = some c
    ∧ (consolidateStep ["jobs", jid] ["jobs", jid, mn] mn fs item).isFile
        ["jobs", jid, mn, item] = false := by
  have hf : fs.isFile (["jobs", jid, mn] ++ [item]) = true := by
    rw [FS.isFile]
    show (fs.files.lookup ["jobs", jid, mn, item]).isSome = true
    rw [h]
    rfl
  have hne : (["jobs", jid, mn, item] : FsPath) ≠ ["jobs", jid, mn ++ "_" ++ item] := by
    intro e
    have := congrArg List.length e
    simp at this
  simp only [consolidateStep]
  rw [if_pos hf, if_pos (show fs.pathExists (["jobs", jid] ++ [item]) = true from hp)]
  exact ⟨moveFile_lookup_dst h, moveFile_src_gone hne⟩

theorem consolidateStep_skip {fs : FS} {jid mn item : String}
    (h : fs.isFile ["jobs", jid, mn, item] = false) :
    consolidateStep ["jobs", jid] ["jobs", jid, mn] mn fs item = fs := by
  have hcond : ¬ fs.isFile (["jobs", jid, mn] ++ [item]) = true := by
    rw [show (["jobs", jid, mn] : FsPath) ++ [item] = ["jobs", jid, mn, item] from rfl, h]
    simp
  simp only [consolidateStep]
  rw [if_neg hcond]

/-- C9: for every filesystem, `consolidate_log_files` on an existing
`jobs/<job-id>/<model>` subdirectory reports success; each file of the
subdirectory is moved up to the job directory root — keeping its name when
the destination is free, renamed to `<model>_<name>` when a same-named entry
already exists at the root — while entries that are not files are left
untouched; after the loop no file remains in the subdirectory; when nothing
else is nested under it the subdirectory is removed; and when a directory
remains inside, the removal failure is tolerated silently: the subdirectory
stays and the operation still reports success. -/
theorem consolidate_log_files_spec :
    (∀ (fs : FS) (jid mn : String), (mn == "") = false →
        fs.pathExists ["jobs", jid, mn] = true →
        (consolidate_log_files fs jid (some mn)).1 = true)
    ∧ (∀ (fs : FS) (jid mn item c : String),
        fs.files.lookup ["jobs", jid, mn, item] = some c →
        fs.pathExists ["jobs", jid, item] = false →
        (consolidateStep ["jobs", jid] ["jobs", jid, mn] mn fs item).files.lookup
            ["jobs", jid, item] = some c
        ∧ (consolidateStep ["jobs", jid] ["jobs", jid, mn] mn fs item).isFile
            ["jobs", jid, mn, item] = false)
    ∧ (∀ (fs : FS) (jid mn item c : String),
        fs.files.lookup ["jobs", jid, mn, item] = some c →
        fs.pathExists ["jobs", jid, item] = true →
        (consolidateStep ["jobs", jid] ["jobs", jid, mn] mn fs item).files.lookup
            ["jobs", jid, mn ++ "_" ++ item] = some c
        ∧ (consolidateStep ["jobs", jid] ["jobs", jid, mn] mn fs item).isFile
            ["jobs", jid, mn, item] = false)
    ∧ (∀ (fs : FS) (jid mn item : String),
        fs.isFile ["jobs", jid, mn, item] = false →
        consolidateStep ["jobs", jid] ["jobs", jid, mn] mn fs item = fs)
    ∧ (∀ (fs : FS) (jid mn : String), (mn == "") = false →
        fs.pathExists ["jobs", jid, mn] = true →
        ∀ n, (consolidate_log_files fs jid (some mn)).2.isFile
          ["jobs", jid, mn, n] = false)
    ∧ (∀ (fs : FS) (jid mn : String), (mn == "") = false →
        fs.pathExists ["jobs", jid, mn] = true →
        (∀ d ∈ fs.dirs, childName ["jobs", jid, mn] d = none) →
        (consolidate_log_files fs jid (some mn)).2.isDir ["jobs", jid, mn] = false)
    ∧ (∀ (fs : FS) (jid mn : String) (d : FsPath), (mn == "") = false →
        fs.pathExists ["jobs", jid, mn] = true →
        d ∈ fs.dirs → (childName ["jobs", jid, mn] d).isSome = true →
        (consolidate_log_files fs jid (some mn)).1 = true
        ∧ (consolidate_log_files fs jid (some mn)).2.isDir ["jobs", jid, mn]
          = fs.isDir ["jobs", jid, mn]) := by
  refine ⟨?_, ?_, ?_, ?_, ?_, ?_, ?_⟩
  · intro fs jid mn hmn hex
    rw [consolidate_log_files_eq hmn hex]
  · exact fun fs jid mn item c h hp => consolidateStep_move_plain h hp
  · exact fun fs jid mn item c h hp => consolidateStep_move_renamed h hp
  · exact fun fs jid mn item h => consolidateStep_skip h
  · exact fun fs jid mn hmn hex n => consolidate_clears_subdir hmn hex n
  · exact fun fs jid mn hmn hex hnodir => consolidate_removes_subdir hmn hex hnodir
  · intro fs jid mn d hmn hex hd hchild
    exact ⟨by rw [consolidate_log_files_eq hmn hex],
      consolidate_keeps_subdir hmn hex hd hchild⟩

/-- C9 (witness): the concrete scenario of the claim — a subdirectory with
two files, one colliding at the root — exercised through the theorem's
universal parts: success flag, collision rename, plain move, cleared
subdirectory, removal of the emptied subdirectory, and tolerance when a
nested directory blocks removal. -/
theorem consolidate_log_files_spec_witness :
    (consolidate_log_files
        ⟨[(["jobs", "j1", "m", "train.log"], "L1"),
          (["jobs", "j1", "m", "x.txt"], "L2"),
          (["jobs", "j1", "x.txt"], "old")],
         [["jobs", "j1"], ["jobs", "j1", "m"]]⟩ "j1" (some "m")).1 = true
    ∧ (consolidateStep ["jobs", "j1"] ["jobs", "j1", "m"] "m"
        ⟨[(["jobs", "j1", "m", "x.txt"], "L2"), (["jobs", "j1", "x.txt"], "old")],
         [["jobs", "j1"], ["jobs", "j1", "m"]]⟩ "x.txt").files.lookup
        ["jobs", "j1", "m_x.txt"] = some "L2"
    ∧ (consolidateStep ["jobs", "j1"] ["jobs", "j1", "m"] "m"
        ⟨[(["jobs", "j1", "m", "train.log"], "L1")],
         [["jobs", "j1"], ["jobs", "j1", "m"]]⟩ "train.log").files.lookup
        ["jobs", "j1", "train.log"] = some "L1"
    ∧ (consolidate_log_files
        ⟨[(["jobs", "j1", "m", "train.log"], "L1"),
          (["jobs", "j1", "m", "x.txt"], "L2"),
          (["jobs", "j1", "x.txt"], "old")],
         [["jobs", "j1"], ["jobs", "j1", "m"]]⟩ "j1" (some "m")).2.isFile
        ["jobs", "j1", "m", "x.txt"] = false
    ∧ (consolidate_log_files
        ⟨[(["jobs", "j1", "m", "train.log"], "L1"),
          (["jobs", "j1", "m", "x.txt"], "L2"),
          (["jobs", "j1", "x.txt"], "old")],
         [["jobs", "j1"], ["jobs", "j1", "m"]]⟩ "j1" (some "m")).2.isDir
        ["jobs", "j1", "m"] = false
    ∧ (consolidate_log_files
        ⟨[(["jobs", "j1", "m", "a.log"], "A")],
         [["jobs", "j1"], ["jobs", "j1", "m"], ["jobs", "j1", "m", "sub"]]⟩
        "j1" (some "m")).2.isDir ["jobs", "j1", "m"] = true :=
  ⟨consolidate_log_files_spec.1 _ "j1" "m" (by decide) (by decide),
   (consolidate_log_files_spec.2.2.1 _ "j1" "m" "x.txt" "L2" (by decide) (by decide)).1,
   (consolidate_log_files_spec.2.1 _ "j1" "m" "train.log" "L1" (by decide) (by decide)).1,
   consolidate_log_files_spec.2.2.2.2.1 _ "j1" "m" (by decide) (by decide) "x.txt",
   consolidate_log_files_spec.2.2.2.2.2.1 _ "j1" "m" (by decide) (by decide) (by decide),
   by
    rw [(consolidate_log_files_spec.2.2.2.2.2.2 _ "j1" "m" ["jobs", "j1", "m", "sub"]
      (by decide) (by decide) (by decide) (by decide)).2]
    decide⟩
